import Mathlib

/-!
A verification development for the document-translation engine of
translateLocally: the Paragraph Chunker, the format-specific Segmenter and
Reassembler, and the LLM Refinement Queue.

Texts are modelled as `List Char` (`Str`): the C++ code operates on `QString`
values, and all the operations exercised here (splitting on `'\n'`,
concatenation, UTF-8 byte counting, trimming, regular-expression scanning over
explicit character positions) are functions of the character sequence.
External library behaviour (Qt's XML tokenizer, libarchive's entry
enumeration, the network layer) is modelled as structured input data; every
algorithm of the repository itself is translated definitionally.
-/

namespace TransLoc

/-- Texts as character sequences (the contents of a `QString`). -/
abbrev Str := List Char

/-- UTF-8 byte size of one character, as `QString::toUtf8` produces it. -/
def charUtf8Size (c : Char) : Nat := c.utf8Size

/-- UTF-8 byte length of a text: `text.toUtf8().size()`. -/
def utf8Len (s : Str) : Nat := (s.map charUtf8Size).sum

/-- UTF-16 length of one character (`QString::length` counts UTF-16 units). -/
def charUtf16Size (c : Char) : Nat := if c.val.toNat < 0x10000 then 1 else 2

/-- UTF-16 code-unit length of a text: `QString::length()`. -/
def utf16Len (s : Str) : Nat := (s.map charUtf16Size).sum

/-- The whitespace characters recognised by `QChar::isSpace` /  PCRE `\s`
(ASCII range; the exotic Unicode separators do not occur in the texts the
claims quantify over). -/
def qIsSpace (c : Char) : Bool :=
  c == ' ' || c == '\t' || c == '\n' || c == '\r' || c == '\x0b' || c == '\x0c'

/-- `QString::trimmed()`: strip leading and trailing whitespace. -/
def qtrim (s : Str) : Str :=
  ((s.dropWhile qIsSpace).reverse.dropWhile qIsSpace).reverse

/-- `QString::split('\n', Qt::KeepEmptyParts)`: split on newline, keeping
empty parts (the empty text yields one empty part, as in Qt). -/
def splitLines : Str → List Str
  | [] => [[]]
  | c :: cs =>
    match splitLines cs with
    | [] => [[c]]
    | l :: ls => if c = '\n' then [] :: l :: ls else (c :: l) :: ls

/-- Join texts with single `'\n'` separators (inverse of `splitLines`). -/
def joinLines : List Str → Str
  | [] => []
  | [l] => l
  | l :: l' :: ls => l ++ '\n' :: joinLines (l' :: ls)

/-- `DocumentSplitter::Segment` as used by `DocumentSplitter.cpp` (the
`.cpp` additionally stores the chapter's raw XHTML in `originalXhtml`). -/
structure Segment where
  text : Str
  identifier : String
  index : Nat
  originalSize : Nat
  originalXhtml : Option Str := none
deriving Repr, DecidableEq

/-- `MAX_SEGMENT_SIZE = 8 * 1024 * 1024` from `DocumentSplitter.h`. -/
def MAX_SEGMENT_SIZE : Nat := 8 * 1024 * 1024

/-- The accumulation loop of `DocumentSplitter::splitTextByParagraphs`
(lines 73–101): greedily grow `currentChunk`, flushing it when appending the
next paragraph would push the UTF-8 byte size over `maxSize` and the current
chunk is non-empty; a final non-empty chunk is flushed at the end. -/
def chunkLoop (maxSize : Nat) : List Str → Str → List Str
  | [], current => if current = [] then [] else [current]
  | para :: ps, current =>
    let potential := if current = [] then para else current ++ '\n' :: para
    if utf8Len potential > maxSize ∧ current ≠ [] then
      current :: chunkLoop maxSize ps para
    else
      chunkLoop maxSize ps potential

/-- `DocumentSplitter::splitTextByParagraphs`: split on `'\n'` keeping empty
parts, run the greedy accumulation loop, and wrap each chunk as a `Segment`
with identifier `segment_<n>` and index `n`. -/
def splitTextByParagraphs (text : Str) (maxSize : Nat) : List Segment :=
  (chunkLoop maxSize (splitLines text) []).enum.map fun p =>
    { text := p.2
      identifier := "segment_" ++ toString p.1
      index := p.1
      originalSize := utf8Len p.2 }

theorem splitLines_ne_nil (s : Str) : splitLines s ≠ [] := by
  cases s with
  | nil => simp [splitLines]
  | cons c cs =>
    simp only [splitLines]
    cases h : splitLines cs with
    | nil => simp
    | cons l ls => by_cases hc : c = '\n' <;> simp [hc]

theorem splitLines_cons_newline (cs : Str) :
    splitLines ('\n' :: cs) = [] :: splitLines cs := by
  simp only [splitLines]
  cases h : splitLines cs with
  | nil => exact absurd h (splitLines_ne_nil cs)
  | cons l ls => simp

theorem splitLines_cons_other (c : Char) (cs : Str) (l : Str) (ls : List Str)
    (hc : c ≠ '\n') (h : splitLines cs = l :: ls) :
    splitLines (c :: cs) = (c :: l) :: ls := by
  simp only [splitLines, h, if_neg hc]

theorem joinLines_cons (l : Str) (ls : List Str) (h : ls ≠ []) :
    joinLines (l :: ls) = l ++ '\n' :: joinLines ls := by
  cases ls with
  | nil => exact absurd rfl h
  | cons l' ls' => rfl

theorem joinLines_splitLines (s : Str) : joinLines (splitLines s) = s := by
  induction s with
  | nil => rfl
  | cons c cs ih =>
    obtain ⟨l, ls, h⟩ := List.exists_cons_of_ne_nil (splitLines_ne_nil cs)
    rw [h] at ih
    by_cases hc : c = '\n'
    · subst hc
      rw [splitLines_cons_newline, h, joinLines_cons _ _ (by simp)]
      simpa using ih
    · rw [splitLines_cons_other c cs l ls hc h]
      cases ls with
      | nil => simpa [joinLines] using congrArg (c :: ·) ih
      | cons l'' ls'' =>
        rw [joinLines_cons _ _ (by simp)] at ih ⊢
        simpa using ih

theorem splitLines_no_newline (s : Str) : ∀ l ∈ splitLines s, '\n' ∉ l := by
  induction s with
  | nil => simp [splitLines]
  | cons c cs ih =>
    obtain ⟨l, ls, h⟩ := List.exists_cons_of_ne_nil (splitLines_ne_nil cs)
    rw [h] at ih
    by_cases hc : c = '\n'
    · subst hc
      rw [splitLines_cons_newline, h]
      intro l' hl'
      rcases List.mem_cons.mp hl' with rfl | hl'
      · simp
      · exact ih l' hl'
    · rw [splitLines_cons_other c cs l ls hc h]
      intro l' hl'
      rcases List.mem_cons.mp hl' with rfl | hl'
      · intro hmem
        rcases List.mem_cons.mp hmem with h' | h'
        · exact hc h'.symm
        · exact ih l (by simp) h'
      · exact ih l' (List.mem_cons_of_mem _ hl')

theorem chunkLoop_nil (m : Nat) (current : Str) :
    chunkLoop m [] current = if current = [] then [] else [current] := rfl

theorem chunkLoop_cons_empty (m : Nat) (p : Str) (ps : List Str) :
    chunkLoop m (p :: ps) [] = chunkLoop m ps p := by
  simp [chunkLoop]

theorem chunkLoop_cons_flush (m : Nat) (p : Str) (ps : List Str) (current : Str)
    (h : current ≠ []) (hsz : utf8Len (current ++ '\n' :: p) > m) :
    chunkLoop m (p :: ps) current = current :: chunkLoop m ps p := by
  simp only [chunkLoop, if_neg h]
  rw [if_pos ⟨hsz, h⟩]

theorem chunkLoop_cons_grow (m : Nat) (p : Str) (ps : List Str) (current : Str)
    (h : current ≠ []) (hsz : ¬ utf8Len (current ++ '\n' :: p) > m) :
    chunkLoop m (p :: ps) current = chunkLoop m ps (current ++ '\n' :: p) := by
  simp only [chunkLoop, if_neg h]
  rw [if_neg (by tauto)]

theorem chunkLoop_ne_nil (m : Nat) (ps : List Str) (current : Str)
    (h : current ≠ []) : chunkLoop m ps current ≠ [] := by
  induction ps generalizing current with
  | nil => simp [chunkLoop_nil, h]
  | cons p ps ih =>
    by_cases hsz : utf8Len (current ++ '\n' :: p) > m
    · rw [chunkLoop_cons_flush m p ps current h hsz]; simp
    · rw [chunkLoop_cons_grow m p ps current h hsz]
      exact ih _ (by simp [h])

theorem chunkLoop_join (m : Nat) (ps : List Str) (current : Str)
    (hcur : current ≠ []) (hps : ∀ p ∈ ps, p ≠ []) :
    joinLines (chunkLoop m ps current) = joinLines (current :: ps) := by
  induction ps generalizing current with
  | nil => simp [chunkLoop_nil, hcur, joinLines]
  | cons p ps ih =>
    have hp : p ≠ [] := hps p (by simp)
    have hps' : ∀ q ∈ ps, q ≠ [] := fun q hq => hps q (List.mem_cons_of_mem _ hq)
    by_cases hsz : utf8Len (current ++ '\n' :: p) > m
    · rw [chunkLoop_cons_flush m p ps current hcur hsz,
        joinLines_cons _ _ (chunkLoop_ne_nil m ps p hp), ih p hp hps',
        joinLines_cons current (p :: ps) (by simp)]
    · rw [chunkLoop_cons_grow m p ps current hcur hsz, ih _ (by simp [hcur]) hps']
      cases ps with
      | nil => simp [joinLines]
      | cons q qs =>
        rw [joinLines_cons (current ++ '\n' :: p) (q :: qs) (by simp),
          joinLines_cons current (p :: q :: qs) (by simp),
          joinLines_cons p (q :: qs) (by simp)]
        simp

/-- The segment constructor used by `splitTextByParagraphs`. -/
def mkChunkSeg (p : Nat × Str) : Segment :=
  { text := p.2
    identifier := "segment_" ++ toString p.1
    index := p.1
    originalSize := utf8Len p.2 }

theorem splitTextByParagraphs_eq (text : Str) (m : Nat) :
    splitTextByParagraphs text m =
      (chunkLoop m (splitLines text) []).enum.map mkChunkSeg := rfl

theorem enumFrom_map_mkChunkSeg_text (chunks : List Str) :
    ∀ n : Nat, (((chunks.enumFrom n).map mkChunkSeg).map (·.text)) = chunks := by
  induction chunks with
  | nil => intro n; rfl
  | cons c cs ih => intro n; simpa [mkChunkSeg] using ih (n + 1)

theorem splitTextByParagraphs_texts (text : Str) (m : Nat) :
    ((splitTextByParagraphs text m).map (·.text)) = chunkLoop m (splitLines text) [] := by
  rw [splitTextByParagraphs_eq]
  exact enumFrom_map_mkChunkSeg_text _ 0

theorem chunkLoop_mem_ok (m : Nat) (paras : List Str)
    (hnl : ∀ p ∈ paras, '\n' ∉ p) :
    ∀ (ps : List Str) (current : Str), (∀ p ∈ ps, p ∈ paras) →
      (utf8Len current ≤ m ∨ ('\n' ∉ current ∧ current ∈ paras)) →
      ∀ c ∈ chunkLoop m ps current,
        utf8Len c ≤ m ∨ ('\n' ∉ c ∧ c ∈ paras) := by
  intro ps
  induction ps with
  | nil =>
    intro current _ hcur c hc
    rw [chunkLoop_nil] at hc
    split at hc
    · simp at hc
    · simp only [List.mem_singleton] at hc
      subst hc; exact hcur
  | cons p ps ih =>
    intro current hmem hcur c hc
    have hp : p ∈ paras := hmem p (by simp)
    have hmem' : ∀ q ∈ ps, q ∈ paras := fun q hq => hmem q (List.mem_cons_of_mem _ hq)
    by_cases hemp : current = []
    · subst hemp
      rw [chunkLoop_cons_empty] at hc
      exact ih p hmem' (Or.inr ⟨hnl p hp, hp⟩) c hc
    · by_cases hsz : utf8Len (current ++ '\n' :: p) > m
      · rw [chunkLoop_cons_flush m p ps current hemp hsz] at hc
        rcases List.mem_cons.mp hc with rfl | hc'
        · exact hcur
        · exact ih p hmem' (Or.inr ⟨hnl p hp, hp⟩) c hc'
      · rw [chunkLoop_cons_grow m p ps current hemp hsz] at hc
        exact ih _ hmem' (Or.inl (by omega)) c hc

theorem chunkLoop_splitLines_join (text : Str) (m : Nat)
    (hne : ∀ p ∈ splitLines text, p ≠ []) :
    joinLines (chunkLoop m (splitLines text) []) = text := by
  obtain ⟨p0, rest, h⟩ := List.exists_cons_of_ne_nil (splitLines_ne_nil text)
  rw [h, chunkLoop_cons_empty,
    chunkLoop_join m rest p0 (hne p0 (h ▸ List.mem_cons_self p0 rest))
      (fun q hq => hne q (h ▸ List.mem_cons_of_mem _ hq)),
    ← h, joinLines_splitLines]

/-- C1 (amended): for every input text whose newline-separated paragraphs are
all non-empty and every positive `maxBytes`, concatenating the texts of the
chunks produced by the Paragraph Chunker (`splitTextByParagraphs`), in order
and joined by `"\n"`, equals the original input text exactly.  (Quantified
over all inputs the claim fails: blank lines are not always preserved — an
input consisting only of a blank line yields no chunks at all; see the
counterexample.) -/
theorem chunker_reconstructs_text (text : Str) (maxBytes : Nat)
    (_hpos : 0 < maxBytes) (hne : ∀ p ∈ splitLines text, p ≠ []) :
    joinLines ((splitTextByParagraphs text maxBytes).map (·.text)) = text := by
  rw [splitTextByParagraphs_texts]
  exact chunkLoop_splitLines_join text maxBytes hne

theorem chunker_reconstructs_text_witness :
    0 < 3 ∧ (∀ p ∈ splitLines "ab\ncd".toList, p ≠ []) ∧
      joinLines ((splitTextByParagraphs "ab\ncd".toList 3).map (·.text)) =
        "ab\ncd".toList :=
  ⟨by decide, by decide, chunker_reconstructs_text _ 3 (by decide) (by decide)⟩

/-- C1 counterexample: the input `"\n"` (one blank line, i.e. two empty
paragraphs) yields no chunks, so the joined chunk texts are `""` and the
original text is not reconstructed: empty paragraphs are dropped here. -/
theorem chunker_reconstructs_text_counterexample :
    ¬ joinLines ((splitTextByParagraphs ('\n' :: []) 10).map (·.text)) =
        '\n' :: [] := by decide

/-- C2: for every input text and positive `maxBytes`, every chunk produced by
the Paragraph Chunker either has UTF-8 byte length at most `maxBytes`, or
contains no `'\n'` and is one whole paragraph of the newline-split input
(emitted whole, never subdivided) whose byte length alone exceeds
`maxBytes`. -/
theorem chunker_size_bound (text : Str) (maxBytes : Nat) (_hpos : 0 < maxBytes) :
    ∀ s ∈ splitTextByParagraphs text maxBytes,
      utf8Len s.text ≤ maxBytes ∨
        ('\n' ∉ s.text ∧ maxBytes < utf8Len s.text ∧ s.text ∈ splitLines text) := by
  intro s hs
  have htext : s.text ∈ chunkLoop maxBytes (splitLines text) [] := by
    have hmap := List.mem_map_of_mem (·.text) hs
    rwa [splitTextByParagraphs_texts] at hmap
  have hok := chunkLoop_mem_ok maxBytes (splitLines text) (splitLines_no_newline text)
      (splitLines text) [] (fun p hp => hp) (Or.inl (by simp [utf8Len])) s.text htext
  rcases hok with h | ⟨hn, hm⟩
  · exact Or.inl h
  · by_cases hle : utf8Len s.text ≤ maxBytes
    · exact Or.inl hle
    · exact Or.inr ⟨hn, by omega, hm⟩

theorem chunker_size_bound_witness :
    0 < 3 ∧ ∀ s ∈ splitTextByParagraphs "ab\ncdefg".toList 3,
      utf8Len s.text ≤ 3 ∨
        ('\n' ∉ s.text ∧ 3 < utf8Len s.text ∧ s.text ∈ splitLines "ab\ncdefg".toList) :=
  ⟨by decide, chunker_size_bound _ 3 (by decide)⟩

/-- Structured error reports (the `emit error(...)` signals of the
splitter). -/
inductive ErrMsg
  | unsupportedFormat
  | txtOpenFailed
  | docxOpenFailed
  | docxNoDocumentXml
  | epubOpenFailed
  | epubNoChapters
  | pdfConversionFailed
deriving Repr, DecidableEq

/-- `DocumentSplitter::splitTxt`: if the file opens, read it as UTF-8 and run
the Paragraph Chunker with `MAX_SEGMENT_SIZE`; otherwise report an error and
return no segments.  The file is modelled by whether it opens and by its
character content. -/
def splitTxt (openOk : Bool) (content : Str) : List Segment × List ErrMsg :=
  if openOk then (splitTextByParagraphs content MAX_SEGMENT_SIZE, [])
  else ([], [.txtOpenFailed])

/-- The sort of `DocumentMerger::mergeToTxt` / `mergeToDocx`: `std::sort` with
comparator `a.index < b.index`.  `std::sort` leaves the order of equal keys
unspecified; it is modelled by `mergeSort` on the non-strict key order. -/
def sortByIndex (segs : List Segment) : List Segment :=
  segs.mergeSort (fun a b => decide (a.index ≤ b.index))

/-- `DocumentMerger::mergeToTxt`: sort the translated segments by index and
write their `text` fields joined by `"\n"` (a separator between consecutive
segments, none at the end); `none` models failure to open the output file. -/
def mergeToTxt (openOk : Bool) (translatedSegments : List Segment) : Option Str :=
  if openOk then some (joinLines ((sortByIndex translatedSegments).map (·.text)))
  else none

theorem mem_enumFrom_map_index_ge (chunks : List Str) (k : Nat) :
    ∀ s ∈ (chunks.enumFrom k).map mkChunkSeg, k ≤ s.index := by
  intro s hs
  obtain ⟨p, hmem, rfl⟩ := List.mem_map.mp hs
  obtain ⟨i, x⟩ := p
  exact (List.mem_enumFrom hmem).1

theorem pairwise_index_enumFrom (chunks : List Str) :
    ∀ n : Nat, List.Pairwise (fun a b : Segment => a.index ≤ b.index)
      ((chunks.enumFrom n).map mkChunkSeg) := by
  induction chunks with
  | nil => intro n; simp
  | cons c cs ih =>
    intro n
    simp only [List.enumFrom, List.map_cons]
    refine List.Pairwise.cons ?_ (ih (n + 1))
    intro s hs
    have := mem_enumFrom_map_index_ge cs (n + 1) s hs
    simpa [mkChunkSeg] using by omega

theorem sortByIndex_splitTextByParagraphs (text : Str) (m : Nat) :
    sortByIndex (splitTextByParagraphs text m) = splitTextByParagraphs text m := by
  apply List.mergeSort_of_sorted
  have hp := pairwise_index_enumFrom (chunkLoop m (splitLines text) []) 0
  rw [splitTextByParagraphs_eq]
  exact hp.imp (fun h => by simpa using h)

/-- C3 (amended): for every plain-text input none of whose lines is empty,
segmenting with `splitTxt` and reassembling the untranslated segments with
`mergeToTxt` (sort by index, join texts with `"\n"`) reproduces the input
exactly.  (Over all inputs the claim fails — blank lines are lost; see the
counterexample.) -/
theorem txt_roundtrip (content : Str)
    (hne : ∀ p ∈ splitLines content, p ≠ []) :
    mergeToTxt true ((splitTxt true content).1) = some content := by
  simp only [splitTxt, mergeToTxt, if_pos]
  rw [sortByIndex_splitTextByParagraphs, splitTextByParagraphs_texts,
    chunkLoop_splitLines_join content MAX_SEGMENT_SIZE hne]

theorem txt_roundtrip_witness :
    (∀ p ∈ splitLines "ab\ncd".toList, p ≠ []) ∧
      mergeToTxt true ((splitTxt true "ab\ncd".toList).1) = some "ab\ncd".toList :=
  ⟨by decide, txt_roundtrip _ (by decide)⟩

/-- C3 counterexample: the plain-text input `"\n"` segments to no segments at
all, so reassembly produces `""` and not the original text. -/
theorem txt_roundtrip_counterexample :
    mergeToTxt true ((splitTxt true ('\n' :: [])).1) ≠ some ('\n' :: []) := by
  have h1 : (splitTxt true ('\n' :: [])).1 = [] := by decide
  rw [h1]
  simp [mergeToTxt, sortByIndex, List.mergeSort_nil, joinLines]

/-- One token of Qt's `QXmlStreamReader` as observed by the extraction loops.
The tokenizer itself is an external library; an entry's character content is
therefore modelled by the token stream the reader yields for it.  A `startEl`
token carries the element text that `readElementText()` would return (that
call consumes the element's character tokens, so they do not reappear). -/
inductive XmlTok
  | startEl (name : String) (text : Str)
  | endEl (name : String)
  | chars (s : Str)
  | other
deriving Repr, DecidableEq

/-- One archive entry: its path name, the XML token stream of its content,
and its raw character content (`QString::fromUtf8` of the bytes). -/
structure ArchEntry where
  name : String
  toks : List XmlTok
  raw : Str
deriving Repr, DecidableEq

/-- A zip archive as libarchive presents it: whether it opens, and its
entries in order. -/
structure Archive where
  openOk : Bool
  entries : List ArchEntry
deriving Repr, DecidableEq

/-- The extraction loop of `DocumentSplitter::splitDocx` (lines 146–158):
on each `<w:t>`-start token append its element text to the current paragraph;
on each `</w:p>` flush the non-empty current paragraph followed by `"\n"`.
Any leftover paragraph text at end of stream is discarded. -/
def extractDocxText : List XmlTok → Str → Str → Str
  | [], fullText, _ => fullText
  | t :: ts, fullText, currentPara =>
    match t with
    | .startEl n txt =>
      if n = "t" then extractDocxText ts fullText (currentPara ++ txt)
      else extractDocxText ts fullText currentPara
    | .endEl n =>
      if n = "p" then
        if currentPara ≠ [] then
          extractDocxText ts (fullText ++ currentPara ++ ['\n']) []
        else extractDocxText ts fullText currentPara
      else extractDocxText ts fullText currentPara
    | _ => extractDocxText ts fullText currentPara

/-- `DocumentSplitter::splitDocx`: open the archive (failure is an error with
empty result), find `word/document.xml` (missing is an error with empty
result), extract its text and run the Paragraph Chunker. -/
def splitDocx (a : Archive) : List Segment × List ErrMsg :=
  if ¬ a.openOk then ([], [.docxOpenFailed])
  else
    match a.entries.find? (fun e => e.name = "word/document.xml") with
    | some e =>
      (splitTextByParagraphs (extractDocxText e.toks [] []) MAX_SEGMENT_SIZE, [])
    | none => ([], [.docxNoDocumentXml])

/-- Paragraph-boundary end tags of the EPUB extraction loop. -/
def isParaTag (t : String) : Bool :=
  t == "p" || t == "h1" || t == "h2" || t == "h3" || t == "h4" || t == "h5" || t == "h6"

/-- The extraction loop of `DocumentSplitter::splitEpub` (lines 261–290):
character tokens are trimmed and accumulated with a trailing space; a
paragraph/heading end tag flushes the trimmed accumulator (if non-blank)
followed by `"\n"`; remaining text is flushed the same way at end of
stream. -/
def extractEpubLoop : List XmlTok → Str → Str → Str
  | [], chapterText, currentPara =>
    if qtrim currentPara ≠ [] then chapterText ++ qtrim currentPara ++ ['\n']
    else chapterText
  | t :: ts, chapterText, currentPara =>
    match t with
    | .chars s =>
      let tr := qtrim s
      if tr ≠ [] then extractEpubLoop ts chapterText (currentPara ++ tr ++ [' '])
      else extractEpubLoop ts chapterText currentPara
    | .endEl n =>
      if isParaTag n then
        if qtrim currentPara ≠ [] then
          extractEpubLoop ts (chapterText ++ qtrim currentPara ++ ['\n']) []
        else extractEpubLoop ts chapterText currentPara
      else extractEpubLoop ts chapterText currentPara
    | _ => extractEpubLoop ts chapterText currentPara

/-- Chapter text extracted from one EPUB entry. -/
def extractEpubText (toks : List XmlTok) : Str := extractEpubLoop toks [] []

/-- The per-chapter segment emission of `DocumentSplitter::splitEpub`
(lines 292–320): skip empty chapter text; if the text exceeds
`MAX_SEGMENT_SIZE` run the Paragraph Chunker and emit `name_part<i>` segments
(raw markup stored only on part 0, indices continuing `segmentIndex`);
otherwise emit one segment with the chapter path as identifier, the trimmed
text, and the raw markup.  Returns the segments and the next global index. -/
def processChapter (name : String) (raw : Str) (chapterText : Str)
    (segmentIndex : Nat) : List Segment × Nat :=
  if chapterText = [] then ([], segmentIndex)
  else if utf8Len chapterText > MAX_SEGMENT_SIZE then
    let chapterSegments := splitTextByParagraphs chapterText MAX_SEGMENT_SIZE
    (chapterSegments.enum.map fun p =>
       { p.2 with
         identifier := name ++ "_part" ++ toString p.1
         index := segmentIndex + p.1
         originalXhtml := if p.1 = 0 then some raw else none },
     segmentIndex + chapterSegments.length)
  else
    ([{ text := qtrim chapterText
        identifier := name
        index := segmentIndex
        originalSize := utf8Len chapterText
        originalXhtml := some raw }],
     segmentIndex + 1)

/-- The `QString::endsWith(".xhtml") || endsWith(".html")` check used to
recognise chapter entries (as a character-list suffix test). -/
def isChapterName (n : String) : Bool :=
  List.isSuffixOf ".xhtml".toList n.toList || List.isSuffixOf ".html".toList n.toList

/-- The second pass of `DocumentSplitter::splitEpub`: process each chapter
entry in order, threading the global segment index. -/
def epubGo : List ArchEntry → Nat → List Segment
  | [], _ => []
  | e :: es, idx =>
    if isChapterName e.name then
      let pr := processChapter e.name e.raw (extractEpubText e.toks) idx
      pr.1 ++ epubGo es pr.2
    else epubGo es idx

/-- `DocumentSplitter::splitEpub`: open the archive (failure is an error), a
first pass collects the chapter names (none is an error with empty result),
then a second pass over the same archive emits the chapter segments. -/
def splitEpub (a : Archive) : List Segment × List ErrMsg :=
  if ¬ a.openOk then ([], [.epubOpenFailed])
  else if (a.entries.filter (fun e => isChapterName e.name)) = [] then
    ([], [.epubNoChapters])
  else (epubGo a.entries 0, [])

/-- `DocumentSplitter::splitPdf`: convert the PDF to a DOCX via LibreOffice
(every conversion failure — LibreOffice missing, process failure, no output —
is an error with empty result, modelled by `none`), split the conversion as
DOCX, and prefix every identifier with `pdf_converted_`. -/
def splitPdf (converted : Option Archive) : List Segment × List ErrMsg :=
  match converted with
  | none => ([], [.pdfConversionFailed])
  | some a =>
    let pr := splitDocx a
    (pr.1.map fun s => { s with identifier := "pdf_converted_" ++ s.identifier }, pr.2)

/-- The input file as `DocumentSplitter::splitDocument` sees it: the
lower-cased extension of its path, how it behaves when opened as a text file,
as a zip archive, and (for PDFs) the result of the external conversion. -/
structure FileModel where
  ext : String
  txtOpenOk : Bool
  txtContent : Str
  archive : Archive
  pdfConverted : Option Archive
deriving Repr, DecidableEq

/-- `DocumentSplitter::splitDocument`: dispatch on the file extension;
unsupported extensions are an error with empty result. -/
def splitDocument (f : FileModel) : List Segment × List ErrMsg :=
  if f.ext = "txt" then splitTxt f.txtOpenOk f.txtContent
  else if f.ext = "docx" then splitDocx f.archive
  else if f.ext = "epub" then splitEpub f.archive
  else if f.ext = "pdf" then splitPdf f.pdfConverted
  else ([], [.unsupportedFormat])

theorem utf8Len_append (a b : Str) : utf8Len (a ++ b) = utf8Len a + utf8Len b := by
  simp [utf8Len]

theorem utf8Len_replicate (n : Nat) (c : Char) :
    utf8Len (List.replicate n c) = n * charUtf8Size c := by
  simp [utf8Len, List.sum_replicate, smul_eq_mul]

theorem splitLines_append_newline (xs ys : Str) (h : '\n' ∉ xs) :
    splitLines (xs ++ '\n' :: ys) = xs :: splitLines ys := by
  induction xs with
  | nil => simpa using splitLines_cons_newline ys
  | cons c cs ih =>
    have hc : c ≠ '\n' := fun hh => h (by simp [hh])
    have hcs : '\n' ∉ cs := fun hh => h (List.mem_cons_of_mem _ hh)
    rw [List.cons_append]
    exact splitLines_cons_other c _ cs (splitLines ys) hc (ih hcs)

theorem dropWhile_head_not (p : Char → Bool) (l : Str) (c : Char) (cs : Str)
    (h : l.dropWhile p = c :: cs) : p c = false := by
  induction l with
  | nil => simp at h
  | cons a l ih =>
    by_cases hp : p a
    · rw [List.dropWhile_cons, if_pos hp] at h; exact ih h
    · rw [List.dropWhile_cons, if_neg hp] at h
      injection h with h1 h2
      subst h1
      simpa using hp

theorem qtrim_is_pre (s : Str) : qtrim s <+: s.dropWhile qIsSpace := by
  unfold qtrim
  apply List.reverse_suffix.mp
  simpa using List.dropWhile_suffix (l := (s.dropWhile qIsSpace).reverse) qIsSpace

theorem qtrim_head_not_space (s : Str) (c : Char) (cs : Str)
    (h : qtrim s = c :: cs) : qIsSpace c = false := by
  obtain ⟨t, ht⟩ := qtrim_is_pre s
  rw [h] at ht
  exact dropWhile_head_not qIsSpace s c (cs ++ t) (by rw [← ht]; simp)

/-- Every non-empty prefix-head of the text is a non-whitespace character. -/
def headNotSpace (s : Str) : Prop :=
  ∀ c cs, s = c :: cs → qIsSpace c = false

theorem headNotSpace_append_block (chT curP : Str) (h : headNotSpace chT)
    (hne : qtrim curP ≠ []) : headNotSpace (chT ++ qtrim curP ++ ['\n']) := by
  cases chT with
  | nil =>
    obtain ⟨c, cs, hq⟩ := List.exists_cons_of_ne_nil hne
    intro c' cs' heq
    rw [hq] at heq
    simp only [List.nil_append, List.cons_append] at heq
    injection heq with h1 _
    rw [← h1]
    exact qtrim_head_not_space curP c cs hq
  | cons a t =>
    intro c' cs' heq
    simp only [List.cons_append] at heq
    injection heq with h1 _
    rw [← h1]
    exact h a t rfl

theorem extractEpubLoop_headNotSpace :
    ∀ (toks : List XmlTok) (chT curP : Str), headNotSpace chT →
      headNotSpace (extractEpubLoop toks chT curP) := by
  intro toks
  induction toks with
  | nil =>
    intro chT curP h
    simp only [extractEpubLoop]
    split
    · exact headNotSpace_append_block chT curP h (by assumption)
    · exact h
  | cons t ts ih =>
    intro chT curP h
    cases t with
    | chars s =>
      simp only [extractEpubLoop]
      split
      · exact ih _ _ h
      · exact ih _ _ h
    | endEl n =>
      simp only [extractEpubLoop]
      split
      · split
        · exact ih _ _ (headNotSpace_append_block chT curP h (by assumption))
        · exact ih _ _ h
      · exact ih _ _ h
    | startEl n txt => exact ih _ _ h
    | other => exact ih _ _ h

theorem extractEpubText_headNotSpace (toks : List XmlTok) :
    headNotSpace (extractEpubText toks) :=
  extractEpubLoop_headNotSpace toks [] [] (by intro c cs h; simp at h)

theorem splitTextByParagraphs_ne_nil (m : Nat) (c : Char) (cs : Str)
    (hc : c ≠ '\n') : splitTextByParagraphs (c :: cs) m ≠ [] := by
  obtain ⟨l, ls, h⟩ := List.exists_cons_of_ne_nil (splitLines_ne_nil cs)
  rw [splitTextByParagraphs_eq, splitLines_cons_other c cs l ls hc h,
    chunkLoop_cons_empty]
  intro hcontra
  have hnil : chunkLoop m ls (c :: l) = [] := by
    have := List.map_eq_nil_iff.mp hcontra
    exact List.enum_eq_nil.mp this
  exact chunkLoop_ne_nil m ls (c :: l) (by simp) hnil

theorem enumFrom_map_mkChunkSeg_index (chunks : List Str) :
    ∀ n : Nat, (((chunks.enumFrom n).map mkChunkSeg).map (·.index)) =
      List.range' n chunks.length := by
  induction chunks with
  | nil => intro n; rfl
  | cons c cs ih =>
    intro n
    simp only [List.enumFrom, List.map_cons, List.length_cons, List.range'_succ]
    exact congrArg (n :: ·) (ih (n + 1))

theorem splitTextByParagraphs_indices (text : Str) (m : Nat) :
    ((splitTextByParagraphs text m).map (·.index)) =
      List.range ((splitTextByParagraphs text m).length) := by
  rw [splitTextByParagraphs_eq]
  have h := enumFrom_map_mkChunkSeg_index (chunkLoop m (splitLines text) []) 0
  simp only [List.enum] at h ⊢
  rw [h, List.range_eq_range']
  simp

theorem map_index_enumFrom_of (i : Nat) (g : Nat × Segment → Segment)
    (hg : ∀ p, (g p).index = i + p.1) :
    ∀ (cs : List Segment) (n : Nat),
      (((cs.enumFrom n).map g).map (·.index)) = List.range' (i + n) cs.length := by
  intro cs
  induction cs with
  | nil => intro n; rfl
  | cons c cs ih =>
    intro n
    simp only [List.enumFrom, List.map_cons, List.length_cons, List.range'_succ]
    rw [hg (n, c)]
    have := ih (n + 1)
    rw [← Nat.add_assoc] at this
    exact congrArg (_ :: ·) this

theorem processChapter_indices (name : String) (raw t : Str) (i : Nat) :
    ((processChapter name raw t i).1).map (·.index) =
        List.range' i ((processChapter name raw t i).1).length
      ∧ (processChapter name raw t i).2 = i + ((processChapter name raw t i).1).length := by
  unfold processChapter
  by_cases h0 : t = []
  · simp [h0]
  · by_cases h1 : utf8Len t > MAX_SEGMENT_SIZE
    · simp only [if_neg h0, if_pos h1]
      constructor
      · have h := map_index_enumFrom_of i
          (fun p => { p.2 with
            identifier := name ++ "_part" ++ toString p.1
            index := i + p.1
            originalXhtml := if p.1 = 0 then some raw else none })
          (fun p => rfl) (splitTextByParagraphs t MAX_SEGMENT_SIZE) 0
        simp only [List.enum] at h ⊢
        rw [h]
        simp
      · simp
    · simp only [if_neg h0, if_neg h1]
      simp [List.range'_succ]

theorem epubGo_indices :
    ∀ (es : List ArchEntry) (i : Nat),
      (epubGo es i).map (·.index) = List.range' i (epubGo es i).length := by
  intro es
  induction es with
  | nil => intro i; rfl
  | cons e es ih =>
    intro i
    unfold epubGo
    by_cases hch : isChapterName e.name
    · simp only [if_pos hch]
      have hpc := processChapter_indices e.name e.raw (extractEpubText e.toks) i
      rw [List.map_append, hpc.1, ih _, hpc.2, List.length_append]
      have := List.range'_append_1 i ((processChapter e.name e.raw (extractEpubText e.toks) i).1).length
        (epubGo es (i + ((processChapter e.name e.raw (extractEpubText e.toks) i).1).length)).length
      rw [this, Nat.add_comm]
    · simp only [if_neg hch]
      exact ih i

/-- C9: in all four format variants of `splitDocument`, the indices of the
returned segments are `0, 1, 2, …` in order — strictly increasing and
contiguous from `0`, including across chapter boundaries for EPUB. -/
theorem splitDocument_indices_contiguous (f : FileModel) :
    ((splitDocument f).1).map (·.index) = List.range ((splitDocument f).1).length := by
  unfold splitDocument
  by_cases htxt : f.ext = "txt"
  · simp only [if_pos htxt]
    unfold splitTxt
    cases hop : f.txtOpenOk
    · simp
    · simpa using splitTextByParagraphs_indices f.txtContent MAX_SEGMENT_SIZE
  · simp only [if_neg htxt]
    by_cases hdocx : f.ext = "docx"
    · simp only [if_pos hdocx]
      unfold splitDocx
      cases hop : f.archive.openOk
      · simp
      · simp only [not_true, if_false]
        cases hfind : f.archive.entries.find? (fun e => e.name = "word/document.xml") with
        | none => simp
        | some e => simpa using splitTextByParagraphs_indices (extractDocxText e.toks [] []) MAX_SEGMENT_SIZE
    · simp only [if_neg hdocx]
      by_cases hepub : f.ext = "epub"
      · simp only [if_pos hepub]
        unfold splitEpub
        cases hop : f.archive.openOk
        · simp
        · simp only [not_true, if_false]
          by_cases hch : (f.archive.entries.filter (fun e => isChapterName e.name)) = []
          · simp [hch]
          · simp only [if_neg hch]
            have h := epubGo_indices f.archive.entries 0
            rw [h, List.range_eq_range']
      · simp only [if_neg hepub]
        by_cases hpdf : f.ext = "pdf"
        · simp only [if_pos hpdf]
          unfold splitPdf
          cases hconv : f.pdfConverted with
          | none => simp
          | some a =>
            simp only []
            unfold splitDocx
            cases hop : a.openOk
            · simp
            · simp only [not_true, if_false]
              cases hfind : a.entries.find? (fun e => e.name = "word/document.xml") with
              | none => simp
              | some e =>
                simp only []
                rw [List.map_map, List.length_map]
                have hco : ((fun s => s.index) ∘
                    (fun s => { s with identifier := "pdf_converted_" ++ s.identifier })) =
                    (fun s : Segment => s.index) := rfl
                rw [hco]
                exact splitTextByParagraphs_indices (extractDocxText e.toks [] []) MAX_SEGMENT_SIZE
        · simp [hpdf]


theorem extractEpubLoop_chars (s : Str) (ts : List XmlTok) (chT curP : Str) :
    extractEpubLoop (.chars s :: ts) chT curP =
      if qtrim s ≠ [] then extractEpubLoop ts chT (curP ++ qtrim s ++ [' '])
      else extractEpubLoop ts chT curP := rfl

theorem extractEpubLoop_endEl (nm : String) (ts : List XmlTok) (chT curP : Str) :
    extractEpubLoop (.endEl nm :: ts) chT curP =
      if isParaTag nm then
        (if qtrim curP ≠ [] then extractEpubLoop ts (chT ++ qtrim curP ++ ['\n']) []
         else extractEpubLoop ts chT curP)
      else extractEpubLoop ts chT curP := rfl

theorem extractEpubLoop_nil (chT curP : Str) :
    extractEpubLoop [] chT curP =
      if qtrim curP ≠ [] then chT ++ qtrim curP ++ ['\n'] else chT := rfl

/-- C5 (amended): for an ebook chapter entry processed by `splitEpub` at
global index `idx`: if the extracted chapter text is non-empty and fits in
`MAX_SEGMENT_SIZE` UTF-8 bytes, exactly one `Segment` is emitted, whose
identifier is the chapter path and whose `originalXhtml` is the chapter's raw
markup; if the extracted text exceeds the limit, one or more `Segment`s are
emitted whose identifiers are `chapterPath_part0, chapterPath_part1, …`, with
`originalXhtml` present exactly on part 0.  (The claim's "at least two"
segments in the oversize case is refuted by the counterexample: a single
oversize paragraph yields exactly one `_part0` segment.) -/
theorem epub_chapter_segmentation (e : ArchEntry) (idx : Nat) :
    (extractEpubText e.toks ≠ [] →
      utf8Len (extractEpubText e.toks) ≤ MAX_SEGMENT_SIZE →
      (processChapter e.name e.raw (extractEpubText e.toks) idx).1 =
        [{ text := qtrim (extractEpubText e.toks)
           identifier := e.name
           index := idx
           originalSize := utf8Len (extractEpubText e.toks)
           originalXhtml := some e.raw }])
    ∧ (MAX_SEGMENT_SIZE < utf8Len (extractEpubText e.toks) →
        1 ≤ (processChapter e.name e.raw (extractEpubText e.toks) idx).1.length ∧
        ∀ (k : Nat) (hk : k < (processChapter e.name e.raw (extractEpubText e.toks) idx).1.length),
          ((processChapter e.name e.raw (extractEpubText e.toks) idx).1.get ⟨k, hk⟩).identifier =
              e.name ++ "_part" ++ toString k ∧
          ((processChapter e.name e.raw (extractEpubText e.toks) idx).1.get ⟨k, hk⟩).originalXhtml =
              (if k = 0 then some e.raw else none)) := by
  constructor
  · intro hne hle
    unfold processChapter
    rw [if_neg hne, if_neg (by omega)]
  · intro hover
    have hne : extractEpubText e.toks ≠ [] := by
      intro hnil
      rw [hnil] at hover
      simp [utf8Len] at hover
    obtain ⟨c, cs, hcons⟩ := List.exists_cons_of_ne_nil hne
    have hcspace : qIsSpace c = false := extractEpubText_headNotSpace e.toks c cs hcons
    have hcnl : c ≠ '\n' := by
      intro hh
      rw [hh] at hcspace
      simp [qIsSpace] at hcspace
    have hchunks : splitTextByParagraphs (extractEpubText e.toks) MAX_SEGMENT_SIZE ≠ [] := by
      rw [hcons]
      exact splitTextByParagraphs_ne_nil MAX_SEGMENT_SIZE c cs hcnl
    unfold processChapter
    rw [if_neg hne, if_pos hover]
    constructor
    · simp only [List.length_map, List.enum_length]
      have := List.length_pos.mpr hchunks
      omega
    · intro k hk
      simp only [List.get_eq_getElem, List.getElem_map, List.getElem_enum]
      exact ⟨trivial, trivial⟩

theorem epub_chapter_segmentation_witness :
    extractEpubText [XmlTok.chars "hi".toList, XmlTok.endEl "p"] ≠ [] ∧
    utf8Len (extractEpubText [XmlTok.chars "hi".toList, XmlTok.endEl "p"]) ≤ MAX_SEGMENT_SIZE ∧
    (processChapter "ch.xhtml" "<p>hi</p>".toList
        (extractEpubText [XmlTok.chars "hi".toList, XmlTok.endEl "p"]) 0).1 =
      [{ text := qtrim (extractEpubText [XmlTok.chars "hi".toList, XmlTok.endEl "p"])
         identifier := "ch.xhtml"
         index := 0
         originalSize := utf8Len (extractEpubText [XmlTok.chars "hi".toList, XmlTok.endEl "p"])
         originalXhtml := some "<p>hi</p>".toList }] :=
  ⟨by decide, by decide,
    (epub_chapter_segmentation ⟨"ch.xhtml", [XmlTok.chars "hi".toList, XmlTok.endEl "p"],
      "<p>hi</p>".toList⟩ 0).1 (by decide) (by decide)⟩

/-- The oversize single-paragraph chapter used to refute C5's "at least two
segments": one paragraph of `MAX_SEGMENT_SIZE` characters `'a'`, whose
extracted text (with the trailing newline) exceeds the limit. -/
def oversizedChapter : ArchEntry :=
  ⟨"ch1.xhtml", [XmlTok.chars (List.replicate 8388608 'a'), XmlTok.endEl "p"],
    "<p>orig</p>".toList⟩

theorem qtrim_replicate_a (n : Nat) :
    qtrim (List.replicate n 'a') = List.replicate n 'a' := by
  have ha : qIsSpace 'a' = false := by decide
  cases n with
  | zero => rfl
  | succ k =>
    unfold qtrim
    rw [List.replicate_succ, List.dropWhile_cons, if_neg (by simp [ha])]
    rw [← List.replicate_succ, List.reverse_replicate]
    rw [List.replicate_succ, List.dropWhile_cons, if_neg (by simp [ha])]
    rw [← List.replicate_succ, List.reverse_replicate]

theorem qtrim_replicate_a_space (n : Nat) :
    qtrim (List.replicate n 'a' ++ [' ']) = List.replicate n 'a' := by
  have ha : qIsSpace 'a' = false := by decide
  have hsp : qIsSpace ' ' = true := by decide
  cases n with
  | zero =>
    simp only [List.replicate_zero, List.nil_append]
    unfold qtrim
    rw [List.dropWhile_cons, if_pos (by simp [hsp])]
    rfl
  | succ k =>
    unfold qtrim
    rw [List.replicate_succ, List.cons_append, List.dropWhile_cons, if_neg (by simp [ha]),
      ← List.cons_append, ← List.replicate_succ]
    rw [List.reverse_append, List.reverse_replicate]
    simp only [List.reverse_cons, List.reverse_nil, List.nil_append, List.singleton_append]
    rw [List.dropWhile_cons, if_pos (by simp [hsp])]
    rw [List.replicate_succ, List.dropWhile_cons, if_neg (by simp [ha])]
    rw [← List.replicate_succ, List.reverse_replicate]

theorem replicate_a_ne_nil (n : Nat) (hn : n ≠ 0) : List.replicate n 'a' ≠ [] := by
  cases n with
  | zero => exact absurd rfl hn
  | succ k => simp [List.replicate]

theorem extractEpubText_single_para (n : Nat) (hn : n ≠ 0) :
    extractEpubText [XmlTok.chars (List.replicate n 'a'), XmlTok.endEl "p"] =
      List.replicate n 'a' ++ ['\n'] := by
  have hrep := replicate_a_ne_nil n hn
  unfold extractEpubText
  rw [extractEpubLoop_chars, if_pos (by rw [qtrim_replicate_a]; exact hrep),
    qtrim_replicate_a, List.nil_append]
  rw [extractEpubLoop_endEl, if_pos (by decide),
    if_pos (by rw [qtrim_replicate_a_space]; exact hrep),
    qtrim_replicate_a_space, List.nil_append]
  rw [extractEpubLoop_nil, if_neg (by simp [qtrim])]

theorem utf8Len_rep_a_newline (n : Nat) :
    utf8Len (List.replicate n 'a' ++ ['\n']) = n + 1 := by
  rw [utf8Len_append, utf8Len_replicate]
  have h1 : charUtf8Size 'a' = 1 := by decide
  have h2 : utf8Len ['\n'] = 1 := by decide
  rw [h1, h2]
  omega

theorem epubGo_nil (idx : Nat) : epubGo [] idx = [] := rfl

theorem epubGo_cons_chapter (e : ArchEntry) (es : List ArchEntry) (idx : Nat)
    (h : isChapterName e.name) :
    epubGo (e :: es) idx =
      (processChapter e.name e.raw (extractEpubText e.toks) idx).1 ++
        epubGo es (processChapter e.name e.raw (extractEpubText e.toks) idx).2 := by
  simp only [epubGo]
  rw [if_pos h]

theorem chunkLoop_single_oversize (n m : Nat) (hn : n ≠ 0) (hm : m < n + 1) :
    chunkLoop m [List.replicate n 'a', []] [] = [List.replicate n 'a'] := by
  have hrep := replicate_a_ne_nil n hn
  rw [chunkLoop_cons_empty]
  rw [chunkLoop_cons_flush m [] [] (List.replicate n 'a') hrep
    (by rw [show List.replicate n 'a' ++ '\n' :: [] = List.replicate n 'a' ++ ['\n'] from rfl,
      utf8Len_rep_a_newline]; omega)]
  rw [chunkLoop_nil]
  simp

/-- C5 counterexample: `splitEpub` on an archive holding one chapter whose
extracted text is a single oversize paragraph (MAX_SEGMENT_SIZE+1 UTF-8
bytes) emits exactly ONE segment, `ch1.xhtml_part0` (carrying the raw
markup) — not "at least two" `_partN` segments as claimed. -/
theorem epub_chapter_segmentation_counterexample :
    MAX_SEGMENT_SIZE < utf8Len (extractEpubText oversizedChapter.toks) ∧
    ((splitEpub ⟨true, [oversizedChapter]⟩).1).map
        (fun s => (s.identifier, s.originalXhtml.isSome)) =
      [("ch1.xhtml_part0", true)] := by
  have hmax : MAX_SEGMENT_SIZE = 8388608 := by norm_num [MAX_SEGMENT_SIZE]
  have hex : extractEpubText oversizedChapter.toks =
      List.replicate 8388608 'a' ++ ['\n'] :=
    extractEpubText_single_para 8388608 (by norm_num)
  have hlen : utf8Len (extractEpubText oversizedChapter.toks) = 8388609 := by
    rw [hex, utf8Len_rep_a_newline]
  have hsplit : splitTextByParagraphs (extractEpubText oversizedChapter.toks)
      MAX_SEGMENT_SIZE = [mkChunkSeg (0, List.replicate 8388608 'a')] := by
    rw [splitTextByParagraphs_eq, hex]
    rw [show List.replicate 8388608 'a' ++ ['\n'] =
      List.replicate 8388608 'a' ++ '\n' :: [] from rfl]
    rw [splitLines_append_newline _ _ (by
      intro hmem
      have := List.eq_of_mem_replicate hmem
      simp at this)]
    rw [show splitLines [] = [[]] from rfl]
    rw [chunkLoop_single_oversize 8388608 MAX_SEGMENT_SIZE (by norm_num) (by rw [hmax]; omega)]
    rfl
  have hpc : ((processChapter oversizedChapter.name oversizedChapter.raw
      (extractEpubText oversizedChapter.toks) 0).1).map
        (fun s => (s.identifier, s.originalXhtml.isSome)) =
      [("ch1.xhtml_part0", true)] := by
    unfold processChapter
    rw [if_neg (by
        rw [hex]
        exact fun h => List.cons_ne_nil '\n' []
          (List.append_eq_nil.mp h).2),
      if_pos (by rw [hlen, hmax]; omega)]
    rw [hsplit]
    simp only [List.enum_singleton, List.map_cons, List.map_nil]
    have hid : ("ch1.xhtml" ++ "_part" ++ toString 0 : String) = "ch1.xhtml_part0" := by
      decide
    show [(("ch1.xhtml" ++ "_part" ++ toString 0 : String), true)] =
      [("ch1.xhtml_part0", true)]
    rw [hid]
  have hgo : epubGo [oversizedChapter] 0 =
      (processChapter oversizedChapter.name oversizedChapter.raw
        (extractEpubText oversizedChapter.toks) 0).1 := by
    rw [epubGo_cons_chapter _ _ _ (by decide), epubGo_nil, List.append_nil]
  constructor
  · rw [hlen, hmax]; omega
  · have hsp : (splitEpub ⟨true, [oversizedChapter]⟩).1 = epubGo [oversizedChapter] 0 := by
      unfold splitEpub
      rw [if_neg (by simp), if_neg (by
        simp only [List.filter_cons]
        rw [if_pos (by decide)]
        simp)]
    rw [hsp, hgo, hpc]

/-- C8: for every input whose extension is unsupported, whose archive cannot
be opened, or whose required internal entry is missing (`word/document.xml`
for a word package; at least one chapter entry for an ebook package),
`splitDocument` reports a structured error and returns the empty segment
list — never a partial one. -/
theorem splitDocument_error_empty (f : FileModel)
    (h : (¬ (f.ext = "txt" ∨ f.ext = "docx" ∨ f.ext = "epub" ∨ f.ext = "pdf"))
      ∨ (f.ext = "docx" ∧ (f.archive.openOk = false ∨
          f.archive.entries.find? (fun e => e.name = "word/document.xml") = none))
      ∨ (f.ext = "epub" ∧ (f.archive.openOk = false ∨
          f.archive.entries.filter (fun e => isChapterName e.name) = []))) :
    (splitDocument f).1 = [] ∧ (splitDocument f).2 ≠ [] := by
  unfold splitDocument
  rcases h with h | ⟨hd, hcase⟩ | ⟨he, hcase⟩
  · have h1 : ¬ f.ext = "txt" := fun hh => h (Or.inl hh)
    have h2 : ¬ f.ext = "docx" := fun hh => h (Or.inr (Or.inl hh))
    have h3 : ¬ f.ext = "epub" := fun hh => h (Or.inr (Or.inr (Or.inl hh)))
    have h4 : ¬ f.ext = "pdf" := fun hh => h (Or.inr (Or.inr (Or.inr hh)))
    rw [if_neg h1, if_neg h2, if_neg h3, if_neg h4]
    exact ⟨rfl, by simp⟩
  · rw [if_neg (by rw [hd]; decide), if_pos hd]
    unfold splitDocx
    rcases hcase with hop | hfind
    · rw [if_pos (by simp [hop])]
      exact ⟨rfl, by simp⟩
    · cases hop2 : f.archive.openOk
      · rw [if_pos (by simp [hop2])]
        exact ⟨rfl, by simp⟩
      · rw [if_neg (by simp [hop2]), hfind]
        exact ⟨rfl, by simp⟩
  · rw [if_neg (by rw [he]; decide), if_neg (by rw [he]; decide), if_pos he]
    unfold splitEpub
    rcases hcase with hop | hfilter
    · rw [if_pos (by simp [hop])]
      exact ⟨rfl, by simp⟩
    · cases hop2 : f.archive.openOk
      · rw [if_pos (by simp [hop2])]
        exact ⟨rfl, by simp⟩
      · rw [if_neg (by simp [hop2]), if_pos hfilter]
        exact ⟨rfl, by simp⟩

theorem splitDocument_error_empty_witness :
    (splitDocument ⟨"md", true, [], ⟨true, []⟩, none⟩).1 = [] ∧
      (splitDocument ⟨"md", true, [], ⟨true, []⟩, none⟩).2 ≠ [] :=
  splitDocument_error_empty _ (Or.inl (by decide))

/-- Find the first occurrence of `needle` in a text (`QString::indexOf`):
`none` models the return value `-1`. -/
def findSub (needle : Str) : Str → Option Nat
  | [] => if needle = [] then some 0 else none
  | c :: cs =>
    if needle.isPrefixOf (c :: cs) then some 0
    else (findSub needle cs).map (· + 1)

/-- The `<think>…</think>` stripping loop of `LLMInterface::handleReply`
(lines 226–235): repeatedly locate `"<think>"`; if a following `"</think>"`
exists remove through its end, otherwise remove to the end of the text.  The
fuel bounds the loop (each iteration strictly shortens the text). -/
def stripThink : Nat → Str → Str
  | 0, s => s
  | fuel + 1, s =>
    match findSub "<think>".toList s with
    | none => s
    | some i =>
      match findSub "</think>".toList (s.drop i) with
      | some j => stripThink fuel (s.take i ++ s.drop (i + (j + 8)))
      | none => stripThink fuel (s.take i)

/-- One refinement chunk (`LLMInterface::Chunk`). -/
structure Chunk where
  index : Nat
  source : Str
  machineTranslation : Str
  refinedTranslation : Str
  completed : Bool
deriving Repr, DecidableEq

/-- The refinement-queue state: `chunks_`, the chunk indices held by
`activeRequests_` (the reply handles are internal; the map's value set is
what the transitions consult), and `completedCount_`. -/
structure LLMState where
  chunks : List Chunk
  active : List Nat
  completedCount : Nat
deriving Repr, DecidableEq

/-- The state at construction: no chunks, no requests, count zero. -/
def initLLMState : LLMState := ⟨[], [], 0⟩

/-- The signals the queue emits. -/
inductive LLMEvent
  | started
  | progressEv (completed total : Nat)
  | partResult (text : Str)
  | ready (text : Str)
  | errorEv
deriving Repr, DecidableEq

/-- The settings consulted by the queue: whether refinement is enabled, and
whether `sendRequest` actually posts a request (the provider is one of the
five known ones and, for the hosted providers, its API key is configured —
otherwise `sendRequest` emits nothing or only an error and posts nothing). -/
structure LLMSettings where
  llmEnabled : Bool
  sendOk : Bool
deriving Repr, DecidableEq

/-- The chunking loop of `LLMInterface::verifyTranslation` (lines 26–45):
walk both line lists in parallel, appending line `i` of each (with a
newline) when present, and flush a chunk when the accumulated source exceeds
3000 UTF-16 units or the last line is reached. -/
def mkChunksGo (srcLines transLines : List Str) (maxLines : Nat) (i : Nat)
    (curS curT : Str) (acc : List Chunk) : List Chunk :=
  if i < maxLines then
    let curS' := if i < srcLines.length then curS ++ srcLines.getD i [] ++ ['\n'] else curS
    let curT' := if i < transLines.length then curT ++ transLines.getD i [] ++ ['\n'] else curT
    if utf16Len curS' > 3000 ∨ i = maxLines - 1 then
      mkChunksGo srcLines transLines maxLines (i + 1) [] []
        (acc ++ [⟨acc.length, qtrim curS', qtrim curT', qtrim curT', false⟩])
    else mkChunksGo srcLines transLines maxLines (i + 1) curS' curT' acc
  else acc
termination_by maxLines - i
decreasing_by all_goals omega

/-- Chunk construction for one verification run. -/
def mkChunks (sourceText translatedText : Str) : List Chunk :=
  let sourceLines := splitLines sourceText
  let transLines := splitLines translatedText
  mkChunksGo sourceLines transLines (max sourceLines.length transLines.length) 0 [] [] []

/-- Update one chunk in place (`chunks_[index]` assignment). -/
def setChunk : List Chunk → Nat → (Chunk → Chunk) → List Chunk
  | [], _, _ => []
  | c :: cs, 0, f => f c :: cs
  | c :: cs, n + 1, f => c :: setChunk cs n f

/-- The dispatch loop of `LLMInterface::processQueue` (lines 59–73): find the
first chunk that is neither completed nor in flight and send it; a successful
send reaches the concurrency cap (1) and breaks the loop, a failed send
(`ok = false`) posts nothing and the loop moves on. -/
def pqGo (ok : Bool) (chunks : List Chunk) (active : List Nat) (i : Nat) : List Nat :=
  if h : i < chunks.length then
    if (chunks.get ⟨i, h⟩).completed = false ∧ i ∉ active then
      if ok then active ++ [i]
      else pqGo ok chunks active (i + 1)
    else pqGo ok chunks active (i + 1)
  else active
termination_by chunks.length - i
decreasing_by all_goals omega

/-- `LLMInterface::processQueue`: strictly one in-flight request
(`maxConcurrent = 1`); return immediately when a request is outstanding. -/
def processQueue (ok : Bool) (s : LLMState) : LLMState :=
  if 1 ≤ s.active.length then s
  else { s with active := pqGo ok s.chunks s.active 0 }

/-- How one finished network reply looks to `handleReply`: a successful
response with its provider-parsed text, a hard API-error payload (the Gemini
error branch), an aborted request (`OperationCanceledError`), or another
transport error. -/
inductive ReplyOutcome
  | success (text : Str)
  | apiError
  | cancelled
  | netError
deriving Repr, DecidableEq

/-- `LLMInterface::handleReply` (lines 164–269) for a reply carrying chunk
`i`: ignore replies no longer in `activeRequests_`; a hard API error emits
one error event, clears the active set and stops; otherwise strip any
`<think>` wrapper from a successful result, record it (when non-empty), mark
the chunk completed, emit the partial concatenation and progress, and either
emit the final result or dispatch the next chunk.  An aborted request emits
no error event; another transport error does. -/
def handleReply (ok : Bool) (i : Nat) (outcome : ReplyOutcome) (s : LLMState) :
    LLMState × List LLMEvent :=
  if i ∉ s.active then (s, [])
  else
    let active' := s.active.erase i
    match outcome with
    | .apiError => ({ s with active := [] }, [.errorEv])
    | _ =>
      let result : Str :=
        match outcome with
        | .success r => stripThink (r.length + 1) r
        | _ => []
      let errEvents : List LLMEvent :=
        match outcome with
        | .netError => [.errorEv]
        | _ => []
      let chunks1 :=
        if result ≠ [] then
          setChunk s.chunks i (fun c => { c with refinedTranslation := qtrim result })
        else s.chunks
      let chunks2 := setChunk chunks1 i (fun c => { c with completed := true })
      let cc := s.completedCount + 1
      let fullText :=
        qtrim (chunks2.foldl (fun acc c => acc ++ c.refinedTranslation ++ "\n\n".toList) [])
      let evs := errEvents ++ [.partResult fullText, .progressEv cc chunks2.length]
      if cc = chunks2.length then
        ({ s with chunks := chunks2, active := active', completedCount := cc },
         evs ++ [.ready fullText])
      else
        (processQueue ok { s with chunks := chunks2, active := active', completedCount := cc },
         evs)

/-- `LLMInterface::cancelVerification` (lines 373–391): take the reply
handles, clear the map first, disconnect each reply before aborting it (so no
`finished` signal is delivered), then clear the chunks and the count.
Nothing is emitted. -/
def cancelVerification (s : LLMState) : LLMState × List LLMEvent :=
  ({ s with active := [], chunks := [], completedCount := 0 }, [])

/-- The abort loop at the top of `verifyTranslation` (lines 16–20): each
in-flight reply is aborted, which delivers its `finished` signal to
`handleReply` with `OperationCanceledError` while the reply is still in the
map. -/
def abortAll (ok : Bool) (s : LLMState) : LLMState × List LLMEvent :=
  s.active.foldl
    (fun pr i =>
      let r := handleReply ok i .cancelled pr.1
      (r.1, pr.2 ++ r.2))
    (s, [])

/-- `LLMInterface::verifyTranslation`: return silently when refinement is
disabled or the source is blank; abort the previous run's requests, clear all
state, re-chunk, and (when chunks exist) emit start and zero progress and
dispatch the first chunk. -/
def verifyTranslation (st : LLMSettings) (sourceText translatedText : Str)
    (s : LLMState) : LLMState × List LLMEvent :=
  if st.llmEnabled = false ∨ qtrim sourceText = [] then (s, [])
  else
    let ab := abortAll st.sendOk s
    let s2 : LLMState := { ab.1 with active := [], chunks := [], completedCount := 0 }
    let cs := mkChunks sourceText translatedText
    if cs = [] then (s2, ab.2)
    else
      (processQueue st.sendOk { s2 with chunks := cs },
       ab.2 ++ [.started, .progressEv 0 cs.length])

/-- One transition of the refinement queue: a public call
(`verifyTranslation`, `cancelVerification`), an internal dispatch
(`processQueue`), or the arrival of a network reply (`handleReply`). -/
inductive LLMStep : LLMState → LLMState → Prop
  | verify {s : LLMState} (st : LLMSettings) (src trans : Str) :
      LLMStep s (verifyTranslation st src trans s).1
  | pq {s : LLMState} (ok : Bool) : LLMStep s (processQueue ok s)
  | reply {s : LLMState} (ok : Bool) (i : Nat) (o : ReplyOutcome) :
      LLMStep s (handleReply ok i o s).1
  | cancel {s : LLMState} : LLMStep s (cancelVerification s).1

/-- States reachable from the initial state through queue transitions. -/
inductive LLMReachable : LLMState → Prop
  | init : LLMReachable initLLMState
  | step {s s' : LLMState} : LLMReachable s → LLMStep s s' → LLMReachable s'

theorem pqGo_length (ok : Bool) (chunks : List Chunk) (active : List Nat) :
    ∀ i, (pqGo ok chunks active i).length ≤ active.length + 1 := by
  have H : ∀ n i, chunks.length - i ≤ n →
      (pqGo ok chunks active i).length ≤ active.length + 1 := by
    intro n
    induction n with
    | zero =>
      intro i hle
      unfold pqGo
      rw [dif_neg (by omega)]
      omega
    | succ k ih =>
      intro i hle
      unfold pqGo
      split
      · split
        · split
          · simp
          · exact ih (i + 1) (by omega)
        · exact ih (i + 1) (by omega)
      · omega
  exact fun i => H chunks.length i (by omega)

theorem processQueue_active_le (ok : Bool) (s : LLMState)
    (h : s.active.length ≤ 1) : (processQueue ok s).active.length ≤ 1 := by
  unfold processQueue
  split
  · exact h
  · rename_i hlt
    have : s.active.length = 0 := by omega
    have hle := pqGo_length ok s.chunks s.active 0
    simp only []
    omega

theorem handleReply_active_le (ok : Bool) (i : Nat) (o : ReplyOutcome)
    (s : LLMState) (h : s.active.length ≤ 1) :
    ((handleReply ok i o s).1).active.length ≤ 1 := by
  unfold handleReply
  split
  · exact h
  · have herase : (s.active.erase i).length ≤ 1 :=
      le_trans (List.length_erase_le i s.active) h
    cases o with
    | apiError => simp
    | success r =>
      simp only []
      split <;> split
      · exact herase
      · exact processQueue_active_le ok _ herase
      · exact herase
      · exact processQueue_active_le ok _ herase
    | cancelled =>
      simp only []
      split <;> split
      · exact herase
      · exact processQueue_active_le ok _ herase
      · exact herase
      · exact processQueue_active_le ok _ herase
    | netError =>
      simp only []
      split <;> split
      · exact herase
      · exact processQueue_active_le ok _ herase
      · exact herase
      · exact processQueue_active_le ok _ herase

theorem abortAll_active_le (ok : Bool) (l : List Nat) :
    ∀ pr : LLMState × List LLMEvent, pr.1.active.length ≤ 1 →
      ((l.foldl (fun pr i =>
          let r := handleReply ok i .cancelled pr.1
          (r.1, pr.2 ++ r.2)) pr).1).active.length ≤ 1 := by
  induction l with
  | nil => intro pr h; exact h
  | cons a l ih =>
    intro pr h
    exact ih _ (handleReply_active_le ok a .cancelled pr.1 h)

theorem verifyTranslation_active_le (st : LLMSettings) (src trans : Str)
    (s : LLMState) (h : s.active.length ≤ 1) :
    ((verifyTranslation st src trans s).1).active.length ≤ 1 := by
  unfold verifyTranslation
  split
  · exact h
  · simp only []
    split
    · simp
    · apply processQueue_active_le
      simp

/-- C6: at most one HTTP request is in flight at any instant — in every
state reachable through `verifyTranslation`, `processQueue`, `handleReply`
and `cancelVerification` transitions, the set of active requests has size at
most 1; and `processQueue` dispatches nothing (leaves the state unchanged)
while a request is still outstanding, so the next chunk is sent only once
the previous request has completed. -/
theorem refinement_queue_concurrency_cap :
    (∀ s, LLMReachable s → s.active.length ≤ 1) ∧
    (∀ (ok : Bool) (s : LLMState), 1 ≤ s.active.length → processQueue ok s = s) := by
  constructor
  · intro s hs
    induction hs with
    | init => simp [initLLMState]
    | step hr hstep ih =>
      cases hstep with
      | verify st src trans => exact verifyTranslation_active_le st src trans _ ih
      | pq ok => exact processQueue_active_le ok _ ih
      | reply ok i o => exact handleReply_active_le ok i o _ ih
      | cancel => simp [cancelVerification]
  · intro ok s h
    unfold processQueue
    rw [if_pos h]

theorem refinement_queue_concurrency_cap_witness :
    initLLMState.active.length ≤ 1 ∧
      processQueue true ⟨[], [0], 0⟩ = ⟨[], [0], 0⟩ :=
  ⟨refinement_queue_concurrency_cap.1 initLLMState LLMReachable.init,
   refinement_queue_concurrency_cap.2 true ⟨[], [0], 0⟩ (by decide)⟩

/-- C7: (1) `cancelVerification` is idempotent and emits nothing; (2) it is
safe from `Idle` (the initial state is left exactly as it is); (3) after a
cancellation no further refinement event is emitted and the state no longer
changes under reply arrivals or dispatch attempts (stale replies fail the
`activeRequests_` membership guard); (4) an aborted in-flight request
(`OperationCanceledError`) never produces a provider-error event. -/
theorem cancelVerification_safe :
    (∀ s : LLMState,
        cancelVerification ((cancelVerification s).1) = cancelVerification s ∧
        (cancelVerification s).2 = []) ∧
    cancelVerification initLLMState = (initLLMState, []) ∧
    (∀ (s : LLMState) (ok : Bool) (i : Nat) (o : ReplyOutcome),
        handleReply ok i o ((cancelVerification s).1) = ((cancelVerification s).1, []) ∧
        processQueue ok ((cancelVerification s).1) = (cancelVerification s).1) ∧
    (∀ (s : LLMState) (ok : Bool) (i : Nat),
        LLMEvent.errorEv ∉ (handleReply ok i .cancelled s).2) := by
  refine ⟨fun s => ⟨rfl, rfl⟩, rfl, fun s ok i o => ⟨?_, ?_⟩, ?_⟩
  · unfold handleReply
    rw [if_pos (by simp [cancelVerification])]
  · unfold processQueue
    rw [if_neg (by simp [cancelVerification])]
    unfold pqGo
    rw [dif_neg (by simp [cancelVerification])]
  · intro s ok i
    unfold handleReply
    split
    · simp
    · simp only []
      split <;> split <;> simp

theorem cancelVerification_safe_witness :
    cancelVerification initLLMState = (initLLMState, []) ∧
      LLMEvent.errorEv ∉ (handleReply true 0 ReplyOutcome.cancelled ⟨[], [0], 0⟩).2 :=
  ⟨cancelVerification_safe.2.1,
   cancelVerification_safe.2.2.2 ⟨[], [0], 0⟩ true 0⟩

/- ---------------------------------------------------------------------
`DocumentMerger::replaceTextInWordXml` (DocumentMerger.cpp lines 72–136).
The QRegularExpression patterns involved are specialised scanners below:
their leftmost-match and lazy/greedy behaviour on these patterns is
deterministic, so each is translated as a function computing the match
length at a position, plus generic leftmost / global-match drivers.
--------------------------------------------------------------------- -/

/-- `"<w:p"` — the paragraph-opening literal of `paraPattern`. -/
def wpOpen : Str := "<w:p".toList

/-- `"</w:p>"` — the terminator sought by the lazy `.*?` of `paraPattern`. -/
def wpClose : Str := "</w:p>".toList

/-- `"<w:t"` — the text-run opening literal of `wtPattern`. -/
def wtOpen : Str := "<w:t".toList

/-- `"</w:t>"` — the text-run closing literal. -/
def wtClose : Str := "</w:t>".toList

/-- Match length of the paragraph header `<w:p(\s[^>]*)?>` at the start of
`s`: `"<w:p"`, then either an immediate `'>'` or one whitespace character,
greedily non-`'>'` characters and the first `'>'`. -/
def paraHeadLen (s : Str) : Option Nat :=
  if wpOpen.isPrefixOf s then
    match s.drop 4 with
    | [] => none
    | c :: cs =>
      if c = '>' then some 5
      else if qIsSpace c then
        match cs.findIdx? (fun x => x == '>') with
        | some j => some (6 + j)
        | none => none
      else none
  else none

/-- Match length of `<w:p(\s[^>]*)?>.*?</w:p>` (with `.` matching
newlines) at the start of `s`: the header, then lazily up to and including
the first following `"</w:p>"`. -/
def paraMatchLen (s : Str) : Option Nat :=
  match paraHeadLen s with
  | none => none
  | some h =>
    match findSub wpClose (s.drop h) with
    | none => none
    | some k => some (h + k + 6)

/-- Match length of `<w:t[^>]*>…</w:t>` at the start of `s`; `minOne` is
`true` for `wtPattern`'s `([^<]+)` content (the first-run search) and
`false` for `allWtPattern`'s `[^<]*` (the deletion pass). -/
def wtMatchLen (minOne : Bool) (s : Str) : Option Nat :=
  if wtOpen.isPrefixOf s then
    match (s.drop 4).findIdx? (fun x => x == '>') with
    | none => none
    | some j =>
      let body := s.drop (5 + j)
      let r := (body.takeWhile (fun x => x != '<')).length
      if minOne ∧ r = 0 then none
      else if wtClose.isPrefixOf (body.drop r) then some (5 + j + r + 6)
      else none
  else none

/-- Leftmost match of a pattern: `(position, length)` of the first position
where the pattern matches (`QRegularExpression::match`). -/
def findMatch (matchLen : Str → Option Nat) : Str → Option (Nat × Nat)
  | [] => (matchLen []).map (fun l => (0, l))
  | c :: cs =>
    match matchLen (c :: cs) with
    | some l => some (0, l)
    | none => (findMatch matchLen cs).map (fun p => (p.1 + 1, p.2))

/-- All matches (`globalMatch`), each search resuming at the end of the
previous match; all patterns here match at least one character, so the fuel
`s.length + 1` suffices. -/
def globalMatches (matchLen : Str → Option Nat) : Nat → Nat → Str → List (Nat × Nat)
  | 0, _, _ => []
  | fuel + 1, base, s =>
    match findMatch matchLen s with
    | none => []
    | some (i, l) =>
      (base + i, l) :: globalMatches matchLen fuel (base + i + l) (s.drop (i + l))

/-- The paragraph matches of `paraPattern.globalMatch(originalXml)`. -/
def paraMatches (s : Str) : List (Nat × Nat) :=
  globalMatches paraMatchLen (s.length + 1) 0 s

/-- `afterFirst.replace(allWtPattern, "")`: remove every `<w:t…>…</w:t>`
occurrence, scanning left to right. -/
def removeAllWtAux : Nat → Str → Str
  | 0, s => s
  | fuel + 1, s =>
    match findMatch (wtMatchLen false) s with
    | none => s
    | some (i, l) => s.take i ++ removeAllWtAux fuel (s.drop (i + l))

/-- See `removeAllWtAux`. -/
def removeAllWt (s : Str) : Str := removeAllWtAux (s.length + 1) s

/-- `QString::toHtmlEscaped` for one character. -/
def escChar (c : Char) : Str :=
  if c = '<' then "&lt;".toList
  else if c = '>' then "&gt;".toList
  else if c = '&' then "&amp;".toList
  else if c = '"' then "&quot;".toList
  else [c]

/-- `QString::toHtmlEscaped`. -/
def toHtmlEscaped (s : Str) : Str := (s.map escChar).flatten

/-- `QString::replace(pos, len, repl)`. -/
def strReplace (s : Str) (pos len : Nat) (repl : Str) : Str :=
  s.take pos ++ repl ++ s.drop (pos + len)

/-- The replacement run `<w:t xml:space="preserve">…</w:t>` holding the
escaped translated paragraph. -/
def newWtFor (transPara : Str) : Str :=
  "<w:t xml:space=\"preserve\">".toList ++ toHtmlEscaped transPara ++ "</w:t>".toList

/-- Rewrite one matched paragraph (lines 110–124): replace the first
(non-empty) text run with the escaped translation and delete every
subsequent text run after it. -/
def mkNewPara (origPara transPara : Str) : Str :=
  match findMatch (wtMatchLen true) origPara with
  | none => origPara
  | some (st, ln) =>
    let newWt := newWtFor transPara
    let replaced := strReplace origPara st ln newWt
    let offset := st + newWt.length
    replaced.take offset ++ removeAllWt (replaced.drop offset)

/-- The match loop of `replaceTextInWordXml` (lines 93–128): walk the
paragraph matches in document order; a paragraph with no (non-empty) text
run is skipped and consumes nothing; the loop stops when the translated
paragraphs are exhausted; otherwise the paragraph's replacement is
recorded and the next translated paragraph is consumed. -/
def wxLoop (xml : Str) (trans : List Str) : List (Nat × Nat) → Nat → List (Nat × Nat × Str)
  | [], _ => []
  | (st, ln) :: ms, tIdx =>
    let origPara := (xml.drop st).take ln
    if (findMatch (wtMatchLen true) origPara).isNone then wxLoop xml trans ms tIdx
    else if trans.length ≤ tIdx then []
    else (st, ln, mkNewPara origPara (trans.getD tIdx [])) :: wxLoop xml trans ms (tIdx + 1)

/-- `DocumentMerger::replaceTextInWordXml`: blank translation returns the
document unchanged; otherwise split the translation on `'\n'` skipping
empty parts (`Qt::SkipEmptyParts`), record a replacement per consuming
paragraph, and apply the replacements back to front. -/
def replaceTextInWordXml (originalXml translatedText : Str) : Str :=
  if qtrim translatedText = [] then originalXml
  else
    let translatedParas := (splitLines translatedText).filter (fun l => l ≠ [])
    let reps := wxLoop originalXml translatedParas (paraMatches originalXml) 0
    reps.reverse.foldl (fun acc r => strReplace acc r.1 r.2.1 r.2.2) originalXml

/-- `DocumentMerger::rebuildDocxWithTranslation`: copy the archive entry by
entry, rewriting only `word/document.xml`; failure to open the original or
to create the output aborts with no result claimed. -/
def rebuildDocxWithTranslation (orig : Archive) (translatedText : Str)
    (outputOk : Bool) : Option (List (String × Str)) :=
  if ¬ orig.openOk then none
  else if ¬ outputOk then none
  else some (orig.entries.map fun e =>
    if e.name = "word/document.xml" then (e.name, replaceTextInWordXml e.raw translatedText)
    else (e.name, e.raw))

/-- `DocumentMerger::mergeToDocx`: `originalSegments` is declared and passed
but explicitly unused (`Q_UNUSED`); the translated segments are sorted by
index, concatenated with newlines, trimmed, and injected into the original
document. -/
def mergeToDocx (orig : Archive) (originalSegments translatedSegments : List Segment)
    (outputOk : Bool) : Option (List (String × Str)) :=
  let _ := originalSegments
  let sorted := sortByIndex translatedSegments
  let fullTranslation := sorted.foldl (fun acc seg => acc ++ seg.text ++ ['\n']) []
  rebuildDocxWithTranslation orig (qtrim fullTranslation) outputOk

/- ---------------------------------------------------------------------
Structured view of a word-package document body, used to state what the
regex rewriting does in terms of paragraph elements and text runs. -/

/-- A text run `<w:t ATTRS>TEXT</w:t>`. -/
structure WRun where
  attrs : Str
  rtext : Str
deriving Repr, DecidableEq

/-- A paragraph element `<w:p ATTRS>…</w:p>`: leading non-run content, then
runs each followed by its trailing non-run content. -/
structure WParaS where
  attrs : Str
  leadGap : Str
  runs : List (WRun × Str)
deriving Repr, DecidableEq

/-- Render one run. -/
def renderRun (r : WRun) : Str := wtOpen ++ r.attrs ++ '>' :: r.rtext ++ wtClose

/-- Render a run chain with its inter-run content. -/
def renderRuns : List (WRun × Str) → Str
  | [] => []
  | (r, g) :: rs => renderRun r ++ g ++ renderRuns rs

/-- The content between the paragraph tags. -/
def renderParaBody (p : WParaS) : Str := p.leadGap ++ renderRuns p.runs

/-- Render a paragraph element. -/
def renderPara (p : WParaS) : Str :=
  wpOpen ++ p.attrs ++ '>' :: (renderParaBody p ++ wpClose)

/-- Render a document body: inter-paragraph content, paragraphs, trailing
content. -/
def renderDoc : List (Str × WParaS) → Str → Str
  | [], tg => tg
  | (g, p) :: ps, tg => g ++ renderPara p ++ renderDoc ps tg

/-- `needle` occurs nowhere in `s` (as a prefix of no suffix). -/
def NoOcc (needle s : Str) : Prop :=
  ∀ i < s.length, needle.isPrefixOf (s.drop i) = false

/-- Well-formed run: attributes without `'<'`/`'>'`, non-empty text without
`'<'` (a run containing text, in the claim's sense). -/
def RunWF (r : WRun) : Prop :=
  ('>' ∉ r.attrs) ∧ ('<' ∉ r.attrs) ∧ ('<' ∉ r.rtext) ∧ r.rtext ≠ []

/-- Well-formed paragraph attributes: empty, or starting with whitespace and
free of `'<'`/`'>'`. -/
def AttrsWF : Str → Prop
  | [] => True
  | c :: cs => qIsSpace c = true ∧ '>' ∉ (c :: cs) ∧ '<' ∉ (c :: cs)

/-- Well-formed paragraph: well-formed attributes, no `"<w:t"` occurrence in
the non-run content, no premature `"</w:p>"` in the body, and well-formed
runs. -/
def ParaWF (p : WParaS) : Prop :=
  AttrsWF p.attrs ∧ NoOcc wtOpen p.leadGap ∧ NoOcc wpClose (renderParaBody p) ∧
    ∀ rg ∈ p.runs, RunWF rg.1 ∧ NoOcc wtOpen rg.2

/-- Well-formed document body: no `"<w:p"` occurrence in inter-paragraph or
trailing content, and well-formed paragraphs. -/
def DocWF (pieces : List (Str × WParaS)) (tailGap : Str) : Prop :=
  (∀ gp ∈ pieces, NoOcc wpOpen gp.1 ∧ ParaWF gp.2) ∧ NoOcc wpOpen tailGap

/-- The claim's paragraph rewrite, structurally: keep the paragraph tags and
the non-run content, replace the first text run by the new
`xml:space="preserve"` run holding the escaped translation, and delete every
subsequent text run. -/
def specNewPara (p : WParaS) (t : Str) : Str :=
  wpOpen ++ p.attrs ++ '>' ::
    ((p.leadGap ++ newWtFor t ++ (p.runs.map (fun rg => rg.2)).flatten) ++ wpClose)

/-- The claim's document transformation: paragraphs without a text run are
left unchanged and consume no translated paragraph; each paragraph with a
text run consumes, in document order, the next translated paragraph; once
the translated paragraphs are exhausted every remaining paragraph keeps its
original text. -/
def specTransform : List (Str × WParaS) → List Str → Str → Str
  | [], _, tg => tg
  | (g, p) :: ps, tps, tg =>
    if p.runs = [] then g ++ renderPara p ++ specTransform ps tps tg
    else
      match tps with
      | [] => g ++ renderPara p ++ renderDoc ps tg
      | t :: ts => g ++ specNewPara p t ++ specTransform ps ts tg

/-- C10: the outcome of `mergeToDocx` — its success and the entries written
to the output archive — is independent of the `originalSegments` argument
(the parameter is accepted and explicitly unused). -/
theorem mergeToDocx_ignores_originalSegments (orig : Archive)
    (os1 os2 ts : List Segment) (outputOk : Bool) :
    mergeToDocx orig os1 ts outputOk = mergeToDocx orig os2 ts outputOk := rfl

theorem isPrefixOf_append_self (a b : Str) : a.isPrefixOf (a ++ b) = true := by
  rw [List.isPrefixOf_iff_prefix]
  exact List.prefix_append a b

theorem prefix_false_in_region (needle a b : Str) (ha : NoOcc needle a)
    (hcross : ∀ k, 0 < k → k < needle.length →
      needle.take k = a.drop (a.length - k) → (needle.drop k).isPrefixOf b = false) :
    ∀ i < a.length, needle.isPrefixOf ((a ++ b).drop i) = false := by
  intro i hi
  rw [List.drop_append_eq_append_drop]
  have hz : i - a.length = 0 := by omega
  rw [hz, List.drop_zero]
  by_contra hcon
  rw [Bool.not_eq_false, List.isPrefixOf_iff_prefix] at hcon
  have hdl : (a.drop i).length = a.length - i := by simp
  by_cases hlen : needle.length ≤ a.length - i
  · have htake := List.prefix_iff_eq_take.mp hcon
    rw [List.take_append_of_le_length (by omega)] at htake
    have hpre : needle <+: a.drop i := List.prefix_iff_eq_take.mpr htake
    rw [← List.isPrefixOf_iff_prefix] at hpre
    rw [ha i hi] at hpre
    exact Bool.false_ne_true hpre
  · push_neg at hlen
    have hk0 : 0 < a.length - i := by omega
    have htake := List.prefix_iff_eq_take.mp hcon
    have h1 : needle.take (a.length - i) = a.drop (a.length - (a.length - i)) := by
      have : a.length - (a.length - i) = i := by omega
      rw [this]
      calc needle.take (a.length - i)
          = ((a.drop i ++ b).take needle.length).take (a.length - i) := by rw [← htake]
        _ = (a.drop i ++ b).take (a.length - i) := by
            rw [List.take_take]
            congr 1
            omega
        _ = (a.drop i).take (a.length - i) := by
            rw [List.take_append_of_le_length (by omega)]
        _ = a.drop i := by
            rw [List.take_of_length_le (by omega)]
    have h2 : (needle.drop (a.length - i)).isPrefixOf b = true := by
      rw [List.isPrefixOf_iff_prefix, List.prefix_iff_eq_take]
      calc needle.drop (a.length - i)
          = ((a.drop i ++ b).take needle.length).drop (a.length - i) := by rw [← htake]
        _ = ((a.drop i ++ b).drop (a.length - i)).take (needle.length - (a.length - i)) := by
            rw [List.drop_take]
        _ = b.take (needle.length - (a.length - i)) := by
            rw [List.drop_left' (by omega)]
        _ = b.take (needle.drop (a.length - i)).length := by
            congr 1
            simp
    rw [hcross (a.length - i) hk0 hlen h1] at h2
    exact Bool.false_ne_true h2

theorem noOcc_append (needle a b : Str) (ha : NoOcc needle a) (hb : NoOcc needle b)
    (hcross : ∀ k, 0 < k → k < needle.length →
      needle.take k = a.drop (a.length - k) → (needle.drop k).isPrefixOf b = false) :
    NoOcc needle (a ++ b) := by
  intro i hi
  by_cases h : i < a.length
  · exact prefix_false_in_region needle a b ha hcross i h
  · rw [List.drop_append_eq_append_drop, List.drop_eq_nil_of_le (by omega), List.nil_append]
    rw [List.length_append] at hi
    exact hb (i - a.length) (by omega)

theorem noOcc_of_not_mem (c0 : Char) (nrest s : Str) (h : c0 ∉ s) :
    NoOcc (c0 :: nrest) s := by
  intro i hi
  cases hd : s.drop i with
  | nil =>
    exfalso
    have : (s.drop i).length = s.length - i := by simp
    rw [hd] at this
    simp at this
    omega
  | cons a as =>
    have hmem : a ∈ s := List.mem_of_mem_drop (hd ▸ List.mem_cons_self a as)
    have hne : (c0 == a) = false := by
      have : c0 ≠ a := fun hh => h (hh ▸ hmem)
      simpa using this
    show ((c0 == a) && nrest.isPrefixOf as) = false
    rw [hne, Bool.false_and]

/-- With a continuation whose head is `'<'` (or an empty continuation), no
proper suffix of one of our needles (all of whose proper suffixes start with
a character other than `'<'`) can continue across the boundary. -/
theorem cross_into_lt (needle b : Str)
    (hn : ∀ k, 0 < k → k < needle.length → (needle.drop k).head? ≠ some '<')
    (hb : b.head? = some '<' ∨ b = []) :
    ∀ k, 0 < k → k < needle.length → (needle.drop k).isPrefixOf b = false := by
  intro k h1 h2
  cases hd : needle.drop k with
  | nil =>
    exfalso
    have : (needle.drop k).length = needle.length - k := by simp
    rw [hd] at this
    simp at this
    omega
  | cons a as =>
    rcases hb with hbh | rfl
    · cases b with
      | nil => simp at hbh
      | cons c cs =>
        have hc : c = '<' := by simpa using hbh
        have hane : a ≠ '<' := by
          intro haeq
          exact hn k h1 h2 (by rw [hd, haeq]; rfl)
        have : (a == c) = false := by simp [hc, hane]
        show ((a == c) && as.isPrefixOf cs) = false
        rw [this, Bool.false_and]
    · rfl

/-- A needle starting with `'<'` cannot begin inside a region free of `'<'`
and continue across its end. -/
theorem cross_no_lt (nrest a b : Str) (ha : '<' ∉ a) :
    ∀ k, 0 < k → k < ('<' :: nrest : Str).length →
      ('<' :: nrest : Str).take k = a.drop (a.length - k) →
      (('<' :: nrest : Str).drop k).isPrefixOf b = false := by
  intro k h1 h2 htake
  exfalso
  cases k with
  | zero => omega
  | succ k' =>
    have hmem : '<' ∈ a.drop (a.length - (k' + 1)) := by
      rw [← htake]
      simp [List.take_cons]
    exact ha (List.mem_of_mem_drop hmem)

theorem findSub_cons_pos (needle : Str) (c : Char) (cs : Str)
    (h : needle.isPrefixOf (c :: cs) = true) : findSub needle (c :: cs) = some 0 := by
  simp [findSub, h]

theorem findSub_cons_neg (needle : Str) (c : Char) (cs : Str)
    (h : needle.isPrefixOf (c :: cs) = false) :
    findSub needle (c :: cs) = (findSub needle cs).map (· + 1) := by
  simp [findSub, h]

theorem findSub_append_at (needle a b : Str)
    (hnone : ∀ i < a.length, needle.isPrefixOf ((a ++ b).drop i) = false)
    (hpre : needle.isPrefixOf b = true) :
    findSub needle (a ++ b) = some a.length := by
  induction a with
  | nil =>
    simp only [List.nil_append, List.length_nil]
    cases b with
    | nil =>
      cases needle with
      | nil => rfl
      | cons c cs => simp [List.isPrefixOf] at hpre
    | cons c cs => exact findSub_cons_pos _ _ _ hpre
  | cons x a ih =>
    show findSub needle (x :: (a ++ b)) = some (a.length + 1)
    rw [findSub_cons_neg _ _ _ (by simpa using hnone 0 (by simp))]
    rw [ih (fun i hi => by simpa using hnone (i + 1) (by simp; omega))]
    rfl

theorem findSub_none (needle s : Str) (hne : needle ≠ [])
    (h : ∀ i < s.length, needle.isPrefixOf (s.drop i) = false) :
    findSub needle s = none := by
  induction s with
  | nil => simp [findSub, hne]
  | cons c cs ih =>
    rw [findSub_cons_neg _ _ _ (by simpa using h 0 (by simp))]
    rw [ih (fun i hi => by simpa using h (i + 1) (by simp; omega))]
    rfl

theorem findMatch_cons_none (matchLen : Str → Option Nat) (c : Char) (cs : Str)
    (h : matchLen (c :: cs) = none) :
    findMatch matchLen (c :: cs) = (findMatch matchLen cs).map (fun p => (p.1 + 1, p.2)) := by
  simp [findMatch, h]

theorem findMatch_cons_some (matchLen : Str → Option Nat) (c : Char) (cs : Str) (l : Nat)
    (h : matchLen (c :: cs) = some l) : findMatch matchLen (c :: cs) = some (0, l) := by
  simp [findMatch, h]

theorem findMatch_none (matchLen : Str → Option Nat) (s : Str)
    (h : ∀ i, i ≤ s.length → matchLen (s.drop i) = none) :
    findMatch matchLen s = none := by
  induction s with
  | nil =>
    have h0 := h 0 (by simp)
    simp only [List.drop_nil] at h0
    simp [findMatch, h0]
  | cons c cs ih =>
    rw [findMatch_cons_none _ _ _ (by simpa using h 0 (by simp))]
    rw [ih (fun i hi => by simpa using h (i + 1) (by simp; omega))]
    rfl

theorem findMatch_append_at (matchLen : Str → Option Nat) (a b : Str) (L : Nat)
    (hnone : ∀ i < a.length, matchLen ((a ++ b).drop i) = none)
    (hsome : matchLen b = some L) :
    findMatch matchLen (a ++ b) = some (a.length, L) := by
  induction a with
  | nil =>
    simp only [List.nil_append, List.length_nil]
    cases b with
    | nil => simp [findMatch, hsome]
    | cons c cs => exact findMatch_cons_some _ _ _ _ hsome
  | cons x a ih =>
    show findMatch matchLen (x :: (a ++ b)) = some (a.length + 1, L)
    rw [findMatch_cons_none _ _ _ (by simpa using hnone 0 (by simp))]
    rw [ih (fun i hi => by simpa using hnone (i + 1) (by simp; omega))]
    rfl

theorem wtMatchLen_none_of_no_pfx (b : Bool) (s : Str)
    (h : wtOpen.isPrefixOf s = false) : wtMatchLen b s = none := by
  unfold wtMatchLen
  rw [if_neg (by simp [h])]

theorem paraHeadLen_none_of_no_pfx (s : Str)
    (h : wpOpen.isPrefixOf s = false) : paraHeadLen s = none := by
  unfold paraHeadLen
  rw [if_neg (by simp [h])]

theorem paraMatchLen_none_of_no_pfx (s : Str)
    (h : wpOpen.isPrefixOf s = false) : paraMatchLen s = none := by
  unfold paraMatchLen
  rw [paraHeadLen_none_of_no_pfx s h]

theorem findMatch_wt_none_of_noOcc (b : Bool) (s : Str) (h : NoOcc wtOpen s) :
    findMatch (wtMatchLen b) s = none := by
  apply findMatch_none
  intro i hi
  by_cases hlt : i < s.length
  · exact wtMatchLen_none_of_no_pfx b _ (h i hlt)
  · have hnil : s.drop i = [] := List.drop_eq_nil_of_le (by omega)
    rw [hnil]
    exact wtMatchLen_none_of_no_pfx b [] rfl

instance (needle s : Str) : Decidable (NoOcc needle s) :=
  Nat.decidableBallLT s.length _

theorem wpOpen_drops_ne_lt :
    ∀ k, 0 < k → k < wpOpen.length → (wpOpen.drop k).head? ≠ some '<' := by
  have h : ∀ k, k < wpOpen.length → 0 < k → (wpOpen.drop k).head? ≠ some '<' := by decide
  exact fun k h1 h2 => h k h2 h1

theorem wtOpen_drops_ne_lt :
    ∀ k, 0 < k → k < wtOpen.length → (wtOpen.drop k).head? ≠ some '<' := by
  have h : ∀ k, k < wtOpen.length → 0 < k → (wtOpen.drop k).head? ≠ some '<' := by decide
  exact fun k h1 h2 => h k h2 h1

theorem wpClose_drops_ne_lt :
    ∀ k, 0 < k → k < wpClose.length → (wpClose.drop k).head? ≠ some '<' := by
  have h : ∀ k, k < wpClose.length → 0 < k → (wpClose.drop k).head? ≠ some '<' := by decide
  exact fun k h1 h2 => h k h2 h1

theorem noOcc_wtOpen_wpOpen : NoOcc wtOpen wpOpen := by decide

theorem noOcc_wtOpen_wpClose : NoOcc wtOpen wpClose := by decide

theorem noOcc_wtOpen_gt : NoOcc wtOpen ['>'] := by decide

theorem noOcc_wpOpen_nil : NoOcc wpOpen [] := by decide

theorem findIdx_gt_first (cs rest : Str) (h : '>' ∉ cs) :
    List.findIdx? (fun x => x == '>') (cs ++ '>' :: rest) = some cs.length := by
  induction cs with
  | nil => simp
  | cons c cs ih =>
    have hc : (c == '>') = false := by
      have hne : c ≠ '>' := fun hh => h (by simp [hh])
      simpa using hne
    rw [List.cons_append, List.findIdx?_cons, List.findIdx?_succ, if_neg (by simp [hc])]
    rw [ih (fun hh => h (List.mem_cons_of_mem _ hh))]
    rfl

theorem takeWhile_ne_lt_append (a rest : Str) (ha : '<' ∉ a)
    (hr : rest.head? = some '<') :
    (a ++ rest).takeWhile (fun x => x != '<') = a := by
  induction a with
  | nil =>
    cases rest with
    | nil => simp at hr
    | cons c cs =>
      have hc : c = '<' := by simpa using hr
      simp [List.takeWhile_cons, hc]
  | cons c cs ih =>
    have hc : (c != '<') = true := by
      have hne : c ≠ '<' := fun hh => ha (by simp [hh])
      simpa using hne
    rw [List.cons_append, List.takeWhile_cons, if_pos (by simp [hc])]
    rw [ih (fun hh => ha (List.mem_cons_of_mem _ hh))]

theorem paraHeadLen_render (attrs rest : Str) (hattr : AttrsWF attrs) :
    paraHeadLen (wpOpen ++ attrs ++ '>' :: rest) = some (5 + attrs.length) := by
  unfold paraHeadLen
  rw [if_pos (by simp [isPrefixOf_append_self])]
  have hdrop : (wpOpen ++ attrs ++ '>' :: rest).drop 4 = attrs ++ '>' :: rest := by
    rw [List.append_assoc]
    exact List.drop_left' (by decide)
  rw [hdrop]
  cases attrs with
  | nil => rfl
  | cons c cs =>
    obtain ⟨hws, hgt, _⟩ := hattr
    have hcne : ¬ c = '>' := fun hh => hgt (by simp [hh])
    rw [List.cons_append]
    simp only [if_neg hcne, hws, if_true]
    rw [findIdx_gt_first cs rest (fun hh => hgt (List.mem_cons_of_mem _ hh))]
    simp [Nat.add_comm]

theorem renderRun_length (r : WRun) :
    (renderRun r).length = 11 + r.attrs.length + r.rtext.length := by
  simp [renderRun, wtOpen, wtClose]
  omega

theorem wtMatchLen_render (b : Bool) (r : WRun) (rest : Str) (hr : RunWF r) :
    wtMatchLen b (renderRun r ++ rest) = some (renderRun r).length := by
  obtain ⟨hgt, hlt, htxt, hne⟩ := hr
  have hshape : renderRun r ++ rest =
      wtOpen ++ (r.attrs ++ '>' :: (r.rtext ++ (wtClose ++ rest))) := by
    simp [renderRun]
  rw [hshape]
  unfold wtMatchLen
  rw [if_pos (by simp [isPrefixOf_append_self])]
  have hdrop4 : (wtOpen ++ (r.attrs ++ '>' :: (r.rtext ++ (wtClose ++ rest)))).drop 4 =
      r.attrs ++ '>' :: (r.rtext ++ (wtClose ++ rest)) := List.drop_left' (by rfl)
  rw [hdrop4, findIdx_gt_first r.attrs (r.rtext ++ (wtClose ++ rest)) hgt]
  simp only []
  have hdropHdr : (wtOpen ++ (r.attrs ++ '>' :: (r.rtext ++ (wtClose ++ rest)))).drop
      (5 + r.attrs.length) = r.rtext ++ (wtClose ++ rest) := by
    rw [show wtOpen ++ (r.attrs ++ '>' :: (r.rtext ++ (wtClose ++ rest))) =
      (wtOpen ++ r.attrs ++ ['>']) ++ (r.rtext ++ (wtClose ++ rest)) from by simp]
    exact List.drop_left' (by simp [wtOpen]; omega)
  rw [hdropHdr]
  have htw : (r.rtext ++ (wtClose ++ rest)).takeWhile (fun x => x != '<') = r.rtext :=
    takeWhile_ne_lt_append r.rtext (wtClose ++ rest) htxt (by simp [wtClose])
  rw [htw]
  rw [if_neg (by
    rintro ⟨-, h0⟩
    exact hne (List.length_eq_zero.mp h0))]
  have hdropTxt : (r.rtext ++ (wtClose ++ rest)).drop r.rtext.length = wtClose ++ rest :=
    List.drop_left' rfl
  rw [hdropTxt, if_pos (by simp [isPrefixOf_append_self])]
  simp only [renderRun_length, Option.some.injEq]
  omega

theorem renderPara_shape (p : WParaS) (rest : Str) :
    renderPara p ++ rest =
      wpOpen ++ p.attrs ++ '>' :: (renderParaBody p ++ (wpClose ++ rest)) := by
  simp [renderPara]

theorem renderPara_length (p : WParaS) :
    (renderPara p).length = 11 + p.attrs.length + (renderParaBody p).length := by
  simp [renderPara, wpOpen, wpClose]
  omega

theorem paraMatchLen_render (p : WParaS) (rest : Str) (hp : ParaWF p) :
    paraMatchLen (renderPara p ++ rest) = some (renderPara p).length := by
  rw [renderPara_shape]
  unfold paraMatchLen
  rw [paraHeadLen_render p.attrs (renderParaBody p ++ (wpClose ++ rest)) hp.1]
  simp only []
  have hdropHdr : (wpOpen ++ p.attrs ++ '>' :: (renderParaBody p ++ (wpClose ++ rest))).drop
      (5 + p.attrs.length) = renderParaBody p ++ (wpClose ++ rest) := by
    rw [show wpOpen ++ p.attrs ++ '>' :: (renderParaBody p ++ (wpClose ++ rest)) =
      (wpOpen ++ p.attrs ++ ['>']) ++ (renderParaBody p ++ (wpClose ++ rest)) from by simp]
    exact List.drop_left' (by simp [wpOpen]; omega)
  rw [hdropHdr]
  have hfs : findSub wpClose (renderParaBody p ++ (wpClose ++ rest)) =
      some (renderParaBody p).length := by
    apply findSub_append_at
    · apply prefix_false_in_region wpClose (renderParaBody p) (wpClose ++ rest) hp.2.2.1
      intro k h1 h2 _
      exact cross_into_lt wpClose (wpClose ++ rest) wpClose_drops_ne_lt
        (Or.inl (by simp [wpClose])) k h1 h2
    · exact isPrefixOf_append_self wpClose rest
  rw [hfs]
  simp only [renderPara_length, Option.some.injEq]
  omega

/-- Generalisation of `cross_into_lt` to an arbitrary boundary character. -/
theorem cross_into_head (ch : Char) (needle b : Str)
    (hn : ∀ k, 0 < k → k < needle.length → (needle.drop k).head? ≠ some ch)
    (hb : b.head? = some ch ∨ b = []) :
    ∀ k, 0 < k → k < needle.length → (needle.drop k).isPrefixOf b = false := by
  intro k h1 h2
  cases hd : needle.drop k with
  | nil =>
    exfalso
    have hl : (needle.drop k).length = needle.length - k := by simp
    rw [hd] at hl
    simp at hl
    omega
  | cons a as =>
    rcases hb with hbh | rfl
    · cases b with
      | nil => simp at hbh
      | cons c cs =>
        have hc : c = ch := by simpa using hbh
        have hane : a ≠ ch := by
          intro haeq
          exact hn k h1 h2 (by rw [hd, haeq]; rfl)
        have hf : (a == c) = false := by simp [hc, hane]
        show ((a == c) && as.isPrefixOf cs) = false
        rw [hf, Bool.false_and]
    · rfl

/-- A crossing obligation whose take-equality premise never holds is vacuous. -/
theorem cross_of_take_ne (needle a b : Str)
    (h : ∀ k, k < needle.length → 0 < k → needle.take k ≠ a.drop (a.length - k)) :
    ∀ k, 0 < k → k < needle.length →
      needle.take k = a.drop (a.length - k) → (needle.drop k).isPrefixOf b = false :=
  fun k h1 h2 htake => absurd htake (h k h2 h1)

theorem wtOpen_take_ne_wpOpen : ∀ k, k < wtOpen.length → 0 < k →
    wtOpen.take k ≠ wpOpen.drop (wpOpen.length - k) := by decide

theorem wtOpen_take_ne_gtSingle : ∀ k, k < wtOpen.length → 0 < k →
    wtOpen.take k ≠ (['>'] : Str).drop ((['>'] : Str).length - k) := by decide

theorem wtOpen_drops_ne_gt : ∀ k, 0 < k → k < wtOpen.length →
    (wtOpen.drop k).head? ≠ some '>' := by
  have h : ∀ k, k < wtOpen.length → 0 < k → (wtOpen.drop k).head? ≠ some '>' := by decide
  exact fun k h1 h2 => h k h2 h1

theorem noOcc_wtOpen_of_not_mem (s : Str) (h : '<' ∉ s) : NoOcc wtOpen s := by
  have hwt : wtOpen = '<' :: "w:t".toList := by decide
  rw [hwt]
  exact noOcc_of_not_mem _ _ _ h

/-- `"<w:t"` occurs nowhere in a rendered paragraph opening tag followed by
lead content free of it. -/
theorem noOcc_wtOpen_paraPrefix (A G : Str) (hA : AttrsWF A) (hG : NoOcc wtOpen G) :
    NoOcc wtOpen (wpOpen ++ A ++ '>' :: G) := by
  have hAlt : '<' ∉ A := by
    cases A with
    | nil => simp
    | cons c cs => exact hA.2.2
  have n1 : NoOcc wtOpen (wpOpen ++ A) :=
    noOcc_append _ _ _ noOcc_wtOpen_wpOpen (noOcc_wtOpen_of_not_mem A hAlt)
      (cross_of_take_ne _ _ _ wtOpen_take_ne_wpOpen)
  have n2 : NoOcc wtOpen ('>' :: G) := by
    have h := noOcc_append wtOpen ['>'] G noOcc_wtOpen_gt hG
      (cross_of_take_ne _ _ _ wtOpen_take_ne_gtSingle)
    simpa using h
  exact noOcc_append _ _ _ n1 n2
    (fun k h1 h2 _ =>
      cross_into_head '>' wtOpen ('>' :: G) wtOpen_drops_ne_gt (Or.inl rfl) k h1 h2)

/-- In a rendered paragraph whose first run starts right after the lead
content, the leftmost `<w:t…>…</w:t>` match is that first run. -/
theorem findMatch_wt_first (b : Bool) (A G : Str) (r0 : WRun) (rest : Str)
    (hA : AttrsWF A) (hG : NoOcc wtOpen G) (hr0 : RunWF r0) :
    findMatch (wtMatchLen b) ((wpOpen ++ A ++ '>' :: G) ++ (renderRun r0 ++ rest))
      = some ((wpOpen ++ A ++ '>' :: G).length, (renderRun r0).length) := by
  apply findMatch_append_at
  · intro i hi
    apply wtMatchLen_none_of_no_pfx
    exact prefix_false_in_region wtOpen _ _ (noOcc_wtOpen_paraPrefix A G hA hG)
      (fun k h1 h2 _ =>
        cross_into_lt wtOpen (renderRun r0 ++ rest) wtOpen_drops_ne_lt
          (Or.inl rfl) k h1 h2) i hi
  · exact wtMatchLen_render b r0 rest hr0

/-- A paragraph without runs contains no text-run match at all. -/
theorem findMatch_wt_para_norun (b : Bool) (p : WParaS) (hp : ParaWF p)
    (hruns : p.runs = []) :
    findMatch (wtMatchLen b) (renderPara p) = none := by
  apply findMatch_wt_none_of_noOcc
  have hshape : renderPara p = wpOpen ++ p.attrs ++ '>' :: (p.leadGap ++ wpClose) := by
    simp [renderPara, renderParaBody, hruns, renderRuns]
  rw [hshape]
  apply noOcc_wtOpen_paraPrefix p.attrs (p.leadGap ++ wpClose) hp.1
  exact noOcc_append _ _ _ hp.2.1 noOcc_wtOpen_wpClose
    (fun k h1 h2 _ => cross_into_lt wtOpen wpClose wtOpen_drops_ne_lt (Or.inl rfl) k h1 h2)

/-- Rendering a paragraph whose run list starts with `(r0, g0)`. -/
theorem renderPara_cons_shape (p : WParaS) (r0 : WRun) (g0 : Str)
    (rs : List (WRun × Str)) (hruns : p.runs = (r0, g0) :: rs) :
    renderPara p = (wpOpen ++ p.attrs ++ '>' :: p.leadGap)
      ++ (renderRun r0 ++ (g0 ++ (renderRuns rs ++ wpClose))) := by
  simp [renderPara, renderParaBody, hruns, renderRuns]

theorem renderRuns_length_ge (rs : List (WRun × Str)) :
    rs.length ≤ (renderRuns rs).length := by
  induction rs with
  | nil => simp [renderRuns]
  | cons rg rs ih =>
    obtain ⟨r, g⟩ := rg
    simp only [renderRuns, List.length_cons, List.length_append, renderRun_length]
    omega

/-- The deletion pass removes exactly the runs from a gap/run alternation,
keeping the content between them and the closing tag. -/
theorem removeAllWtAux_chain (rs : List (WRun × Str)) (fuel : Nat) (g : Str)
    (hg : NoOcc wtOpen g)
    (hrs : ∀ rg ∈ rs, RunWF rg.1 ∧ NoOcc wtOpen rg.2)
    (hfuel : rs.length ≤ fuel) :
    removeAllWtAux fuel (g ++ (renderRuns rs ++ wpClose))
      = g ++ ((rs.map (fun rg => rg.2)).flatten ++ wpClose) := by
  induction rs generalizing fuel g with
  | nil =>
    have hno : NoOcc wtOpen (g ++ wpClose) := noOcc_append _ _ _ hg noOcc_wtOpen_wpClose
      (fun k h1 h2 _ =>
        cross_into_lt wtOpen wpClose wtOpen_drops_ne_lt (Or.inl rfl) k h1 h2)
    have hfm := findMatch_wt_none_of_noOcc false (g ++ wpClose) hno
    cases fuel with
    | zero => simp [removeAllWtAux, renderRuns]
    | succ f => simp [removeAllWtAux, renderRuns, hfm]
  | cons rg rs ih =>
    obtain ⟨r, gap⟩ := rg
    obtain ⟨hr, hgap⟩ := hrs (r, gap) (List.mem_cons_self _ _)
    have hrs' : ∀ x ∈ rs, RunWF x.1 ∧ NoOcc wtOpen x.2 :=
      fun x hx => hrs x (List.mem_cons_of_mem _ hx)
    cases fuel with
    | zero => simp at hfuel
    | succ f =>
      have hshape : g ++ (renderRuns ((r, gap) :: rs) ++ wpClose)
          = g ++ (renderRun r ++ (gap ++ (renderRuns rs ++ wpClose))) := by
        simp [renderRuns]
      have hfm : findMatch (wtMatchLen false)
          (g ++ (renderRun r ++ (gap ++ (renderRuns rs ++ wpClose))))
          = some (g.length, (renderRun r).length) := by
        apply findMatch_append_at
        · intro i hi
          apply wtMatchLen_none_of_no_pfx
          exact prefix_false_in_region wtOpen _ _ hg
            (fun k h1 h2 _ =>
              cross_into_lt wtOpen (renderRun r ++ (gap ++ (renderRuns rs ++ wpClose)))
                wtOpen_drops_ne_lt (Or.inl rfl) k h1 h2) i hi
        · exact wtMatchLen_render false r _ hr
      rw [hshape]
      rw [show removeAllWtAux (f + 1)
            (g ++ (renderRun r ++ (gap ++ (renderRuns rs ++ wpClose))))
          = (g ++ (renderRun r ++ (gap ++ (renderRuns rs ++ wpClose)))).take g.length
            ++ removeAllWtAux f
              ((g ++ (renderRun r ++ (gap ++ (renderRuns rs ++ wpClose)))).drop
                (g.length + (renderRun r).length)) from by
        simp [removeAllWtAux, hfm]]
      have htake : (g ++ (renderRun r ++ (gap ++ (renderRuns rs ++ wpClose)))).take g.length
          = g := List.take_left' rfl
      have hdrop : (g ++ (renderRun r ++ (gap ++ (renderRuns rs ++ wpClose)))).drop
          (g.length + (renderRun r).length) = gap ++ (renderRuns rs ++ wpClose) := by
        rw [← List.append_assoc]
        exact List.drop_left' (by simp)
      rw [htake, hdrop]
      have hfle : rs.length ≤ f := by
        simp only [List.length_cons] at hfuel
        omega
      rw [ih f gap hgap hrs' hfle]
      simp

/-- Rewriting one rendered paragraph with a first run: the first run is
replaced by the escaped translation and the later runs are deleted. -/
theorem mkNewPara_render (p : WParaS) (r0 : WRun) (g0 : Str) (rs : List (WRun × Str))
    (t : Str) (hp : ParaWF p) (hruns : p.runs = (r0, g0) :: rs) :
    mkNewPara (renderPara p) t = specNewPara p t := by
  obtain ⟨hA, hG, _hclose, hrswf⟩ := hp
  have hmem0 : (r0, g0) ∈ p.runs := hruns ▸ List.mem_cons_self _ _
  have hr0 : RunWF r0 := (hrswf (r0, g0) hmem0).1
  have hg0 : NoOcc wtOpen g0 := (hrswf (r0, g0) hmem0).2
  have hrs' : ∀ x ∈ rs, RunWF x.1 ∧ NoOcc wtOpen x.2 :=
    fun x hx => hrswf x (hruns ▸ List.mem_cons_of_mem _ hx)
  have hshape := renderPara_cons_shape p r0 g0 rs hruns
  have hfm : findMatch (wtMatchLen true) (renderPara p)
      = some ((wpOpen ++ p.attrs ++ '>' :: p.leadGap).length, (renderRun r0).length) := by
    rw [hshape]
    exact findMatch_wt_first true p.attrs p.leadGap r0 _ hA hG hr0
  unfold mkNewPara
  rw [hfm]
  simp only [strReplace]
  rw [hshape]
  have htake1 : ((wpOpen ++ p.attrs ++ '>' :: p.leadGap)
        ++ (renderRun r0 ++ (g0 ++ (renderRuns rs ++ wpClose)))).take
        (wpOpen ++ p.attrs ++ '>' :: p.leadGap).length
      = wpOpen ++ p.attrs ++ '>' :: p.leadGap := List.take_left' rfl
  have hdrop1 : ((wpOpen ++ p.attrs ++ '>' :: p.leadGap)
        ++ (renderRun r0 ++ (g0 ++ (renderRuns rs ++ wpClose)))).drop
        ((wpOpen ++ p.attrs ++ '>' :: p.leadGap).length + (renderRun r0).length)
      = g0 ++ (renderRuns rs ++ wpClose) := by
    rw [← List.append_assoc]
    exact List.drop_left' (by simp; omega)
  rw [htake1, hdrop1]
  have htake2 : ((wpOpen ++ p.attrs ++ '>' :: p.leadGap) ++ newWtFor t
        ++ (g0 ++ (renderRuns rs ++ wpClose))).take
        ((wpOpen ++ p.attrs ++ '>' :: p.leadGap).length + (newWtFor t).length)
      = (wpOpen ++ p.attrs ++ '>' :: p.leadGap) ++ newWtFor t :=
    List.take_left' (by simp; omega)
  have hdrop2 : ((wpOpen ++ p.attrs ++ '>' :: p.leadGap) ++ newWtFor t
        ++ (g0 ++ (renderRuns rs ++ wpClose))).drop
        ((wpOpen ++ p.attrs ++ '>' :: p.leadGap).length + (newWtFor t).length)
      = g0 ++ (renderRuns rs ++ wpClose) :=
    List.drop_left' (by simp; omega)
  rw [htake2, hdrop2]
  have hchain : removeAllWt (g0 ++ (renderRuns rs ++ wpClose))
      = g0 ++ ((rs.map (fun rg => rg.2)).flatten ++ wpClose) := by
    unfold removeAllWt
    apply removeAllWtAux_chain rs _ g0 hg0 hrs'
    have h1 := renderRuns_length_ge rs
    simp only [List.length_append]
    omega
  rw [hchain]
  simp [specNewPara, hruns]

/-- The absolute `(position, length)` spans of the rendered paragraphs of a
document body, starting at `base`. -/
def paraSpans : Nat → List (Str × WParaS) → List (Nat × Nat)
  | _, [] => []
  | base, (g, p) :: ps =>
    (base + g.length, (renderPara p).length)
      :: paraSpans (base + g.length + (renderPara p).length) ps

/-- The replacement list the match loop produces on a rendered document,
described structurally. -/
def specReps (trans : List Str) : Nat → List (Str × WParaS) → Nat → List (Nat × Nat × Str)
  | _, [], _ => []
  | base, (g, p) :: ps, tIdx =>
    if p.runs = [] then specReps trans (base + g.length + (renderPara p).length) ps tIdx
    else if trans.length ≤ tIdx then []
    else (base + g.length, (renderPara p).length, specNewPara p (trans.getD tIdx []))
      :: specReps trans (base + g.length + (renderPara p).length) ps (tIdx + 1)

theorem renderDoc_length_ge (ps : List (Str × WParaS)) (tg : Str) :
    ps.length ≤ (renderDoc ps tg).length := by
  induction ps with
  | nil => simp [renderDoc]
  | cons gp ps ih =>
    obtain ⟨g, p⟩ := gp
    simp only [renderDoc, List.length_cons, List.length_append, renderPara_length]
    omega

theorem findMatch_para_none_of_noOcc (s : Str) (h : NoOcc wpOpen s) :
    findMatch paraMatchLen s = none := by
  apply findMatch_none
  intro i hi
  by_cases hlt : i < s.length
  · exact paraMatchLen_none_of_no_pfx _ (h i hlt)
  · have hnil : s.drop i = [] := List.drop_eq_nil_of_le (by omega)
    rw [hnil]
    exact paraMatchLen_none_of_no_pfx [] rfl

/-- `globalMatch` of the paragraph pattern on a rendered document body finds
exactly the rendered paragraphs, in order. -/
theorem globalMatches_para (tg : Str) (htg : NoOcc wpOpen tg) :
    ∀ (pieces : List (Str × WParaS)) (fuel base : Nat),
    pieces.length ≤ fuel →
    (∀ gp ∈ pieces, NoOcc wpOpen gp.1 ∧ ParaWF gp.2) →
    globalMatches paraMatchLen fuel base (renderDoc pieces tg) = paraSpans base pieces := by
  intro pieces
  induction pieces with
  | nil =>
    intro fuel base _ _
    have hfm := findMatch_para_none_of_noOcc tg htg
    cases fuel with
    | zero => simp [globalMatches, paraSpans]
    | succ f => simp [globalMatches, paraSpans, renderDoc, hfm]
  | cons gp ps ih =>
    intro fuel base hfuel hwf
    obtain ⟨g, p⟩ := gp
    obtain ⟨hgno, hpwf⟩ := hwf (g, p) (List.mem_cons_self _ _)
    have hwf' : ∀ x ∈ ps, NoOcc wpOpen x.1 ∧ ParaWF x.2 :=
      fun x hx => hwf x (List.mem_cons_of_mem _ hx)
    cases fuel with
    | zero => simp at hfuel
    | succ f =>
      have hshape : renderDoc ((g, p) :: ps) tg
          = g ++ (renderPara p ++ renderDoc ps tg) := by
        simp [renderDoc]
      have hfm : findMatch paraMatchLen (g ++ (renderPara p ++ renderDoc ps tg))
          = some (g.length, (renderPara p).length) := by
        apply findMatch_append_at
        · intro i hi
          apply paraMatchLen_none_of_no_pfx
          exact prefix_false_in_region wpOpen _ _ hgno
            (fun k h1 h2 _ =>
              cross_into_lt wpOpen (renderPara p ++ renderDoc ps tg)
                wpOpen_drops_ne_lt (Or.inl rfl) k h1 h2) i hi
        · exact paraMatchLen_render p _ hpwf
      have hdrop : (g ++ (renderPara p ++ renderDoc ps tg)).drop
          (g.length + (renderPara p).length) = renderDoc ps tg := by
        rw [← List.append_assoc]
        exact List.drop_left' (by simp)
      rw [hshape]
      rw [show globalMatches paraMatchLen (f + 1) base (g ++ (renderPara p ++ renderDoc ps tg))
          = (base + g.length, (renderPara p).length)
            :: globalMatches paraMatchLen f (base + g.length + (renderPara p).length)
              ((g ++ (renderPara p ++ renderDoc ps tg)).drop
                (g.length + (renderPara p).length)) from by
        simp [globalMatches, hfm]]
      rw [hdrop]
      have hfle : ps.length ≤ f := by
        simp only [List.length_cons] at hfuel
        omega
      rw [ih f (base + g.length + (renderPara p).length) hfle hwf']
      rfl

/-- `paraPattern.globalMatch` on a rendered document body. -/
theorem paraMatches_render (pieces : List (Str × WParaS)) (tg : Str)
    (hwf : ∀ gp ∈ pieces, NoOcc wpOpen gp.1 ∧ ParaWF gp.2) (htg : NoOcc wpOpen tg) :
    paraMatches (renderDoc pieces tg) = paraSpans 0 pieces := by
  unfold paraMatches
  apply globalMatches_para tg htg pieces _ 0 _ hwf
  have h := renderDoc_length_ge pieces tg
  omega

/-- The match loop on a rendered document produces exactly the structural
replacement list. -/
theorem wxLoop_struct (trans : List Str) (tg : Str) :
    ∀ (pieces : List (Str × WParaS)) (pre : Str) (tIdx : Nat),
    (∀ gp ∈ pieces, ParaWF gp.2) →
    wxLoop (pre ++ renderDoc pieces tg) trans (paraSpans pre.length pieces) tIdx
      = specReps trans pre.length pieces tIdx := by
  intro pieces
  induction pieces with
  | nil => intro pre tIdx _; rfl
  | cons gp ps ih =>
    intro pre tIdx hwf
    obtain ⟨g, p⟩ := gp
    have hpwf : ParaWF p := hwf (g, p) (List.mem_cons_self _ _)
    have hwf' : ∀ x ∈ ps, ParaWF x.2 := fun x hx => hwf x (List.mem_cons_of_mem _ hx)
    have hxmlshape : pre ++ renderDoc ((g, p) :: ps) tg
        = ((pre ++ g) ++ renderPara p) ++ renderDoc ps tg := by
      simp [renderDoc]
    have horig : ((pre ++ renderDoc ((g, p) :: ps) tg).drop (pre.length + g.length)).take
        (renderPara p).length = renderPara p := by
      rw [hxmlshape]
      rw [show ((pre ++ g) ++ renderPara p) ++ renderDoc ps tg
          = (pre ++ g) ++ (renderPara p ++ renderDoc ps tg) from by simp]
      rw [List.drop_left' (by simp)]
      exact List.take_left' rfl
    have hbase : pre.length + g.length + (renderPara p).length
        = ((pre ++ g) ++ renderPara p).length := by
      simp
      omega
    simp only [paraSpans, wxLoop, specReps]
    rw [horig]
    cases hr : p.runs with
    | nil =>
      rw [if_pos (by simp [findMatch_wt_para_norun true p hpwf hr])]
      rw [if_pos rfl]
      rw [hxmlshape, hbase]
      exact ih ((pre ++ g) ++ renderPara p) tIdx hwf'
    | cons r0g0 rs =>
      obtain ⟨r0, g0⟩ := r0g0
      obtain ⟨hA, hG, hclose, hrunswf⟩ := hpwf
      have hr0wf := hrunswf (r0, g0) (hr ▸ List.mem_cons_self _ _)
      have hfms : findMatch (wtMatchLen true) (renderPara p)
          = some ((wpOpen ++ p.attrs ++ '>' :: p.leadGap).length, (renderRun r0).length) := by
        rw [renderPara_cons_shape p r0 g0 rs hr]
        exact findMatch_wt_first true p.attrs p.leadGap r0 _ hA hG hr0wf.1
      rw [if_neg (by simp [hfms])]
      have hrne : ¬ ((r0, g0) :: rs : List (WRun × Str)) = [] := by simp
      by_cases hT : trans.length ≤ tIdx
      · rw [if_pos hT, if_neg hrne, if_pos hT]
      · rw [if_neg hT, if_neg hrne, if_neg hT]
        rw [mkNewPara_render p r0 g0 rs (trans.getD tIdx []) ⟨hA, hG, hclose, hrunswf⟩ hr]
        rw [hxmlshape, hbase]
        rw [ih ((pre ++ g) ++ renderPara p) (tIdx + 1) hwf']

/-- Replacing the middle block of a three-part string. -/
theorem strReplace_mid (pre g mid rest repl : Str) :
    strReplace (((pre ++ g) ++ mid) ++ rest) (pre.length + g.length) mid.length repl
      = ((pre ++ g) ++ repl) ++ rest := by
  unfold strReplace
  have htake : (((pre ++ g) ++ mid) ++ rest).take (pre.length + g.length) = pre ++ g := by
    rw [show ((pre ++ g) ++ mid) ++ rest = (pre ++ g) ++ (mid ++ rest) from by simp]
    exact List.take_left' (by simp)
  have hdrop : (((pre ++ g) ++ mid) ++ rest).drop (pre.length + g.length + mid.length)
      = rest := List.drop_left' (by simp; omega)
  rw [htake, hdrop]

/-- Applying the structural replacement list back to front rewrites the
rendered document into the structurally transformed one. -/
theorem applyRepsR_struct (trans : List Str) (tg : Str) :
    ∀ (pieces : List (Str × WParaS)) (pre : Str) (tIdx : Nat),
    (specReps trans pre.length pieces tIdx).foldr
        (fun r acc => strReplace acc r.1 r.2.1 r.2.2) (pre ++ renderDoc pieces tg)
      = pre ++ specTransform pieces (trans.drop tIdx) tg := by
  intro pieces
  induction pieces with
  | nil =>
    intro pre tIdx
    simp [specReps, renderDoc, specTransform]
  | cons gp ps ih =>
    intro pre tIdx
    obtain ⟨g, p⟩ := gp
    have hxmlshape : pre ++ renderDoc ((g, p) :: ps) tg
        = ((pre ++ g) ++ renderPara p) ++ renderDoc ps tg := by
      simp [renderDoc]
    have hbase : pre.length + g.length + (renderPara p).length
        = ((pre ++ g) ++ renderPara p).length := by
      simp
      omega
    simp only [specReps, specTransform]
    by_cases hr : p.runs = []
    · rw [if_pos hr, if_pos hr]
      rw [hxmlshape, hbase, ih ((pre ++ g) ++ renderPara p) tIdx]
      simp
    · rw [if_neg hr, if_neg hr]
      by_cases hT : trans.length ≤ tIdx
      · rw [if_pos hT, List.drop_eq_nil_of_le hT]
        simp only [List.foldr_nil]
        rw [hxmlshape]
        simp
      · have hTlt : tIdx < trans.length := Nat.lt_of_not_le hT
        have hdropcons : trans.drop tIdx = trans.getD tIdx [] :: trans.drop (tIdx + 1) := by
          rw [List.drop_eq_getElem_cons hTlt, List.getD_eq_getElem trans [] hTlt]
        rw [if_neg hT, hdropcons]
        calc (((pre.length + g.length, (renderPara p).length,
                  specNewPara p (trans.getD tIdx []))
                :: specReps trans (pre.length + g.length + (renderPara p).length) ps
                  (tIdx + 1))).foldr
              (fun r acc => strReplace acc r.1 r.2.1 r.2.2)
              (pre ++ renderDoc ((g, p) :: ps) tg)
            = strReplace
                (((pre ++ g) ++ renderPara p)
                  ++ specTransform ps (trans.drop (tIdx + 1)) tg)
                (pre.length + g.length) (renderPara p).length
                (specNewPara p (trans.getD tIdx [])) := by
              simp only [List.foldr_cons]
              rw [hxmlshape, hbase, ih ((pre ++ g) ++ renderPara p) (tIdx + 1)]
          _ = ((pre ++ g) ++ specNewPara p (trans.getD tIdx []))
                ++ specTransform ps (trans.drop (tIdx + 1)) tg := strReplace_mid _ _ _ _ _
          _ = pre ++ (g ++ specNewPara p (trans.getD tIdx [])
                ++ specTransform ps (trans.drop (tIdx + 1)) tg) := by simp

instance : (s : Str) → Decidable (AttrsWF s)
  | [] => isTrue trivial
  | c :: cs =>
    inferInstanceAs (Decidable (qIsSpace c = true ∧ '>' ∉ (c :: cs) ∧ '<' ∉ (c :: cs)))

instance (r : WRun) : Decidable (RunWF r) :=
  inferInstanceAs
    (Decidable (('>' ∉ r.attrs) ∧ ('<' ∉ r.attrs) ∧ ('<' ∉ r.rtext) ∧ r.rtext ≠ []))

instance (p : WParaS) : Decidable (ParaWF p) :=
  inferInstanceAs (Decidable (AttrsWF p.attrs ∧ NoOcc wtOpen p.leadGap ∧
    NoOcc wpClose (renderParaBody p) ∧ ∀ rg ∈ p.runs, RunWF rg.1 ∧ NoOcc wtOpen rg.2))

instance (pieces : List (Str × WParaS)) (tg : Str) : Decidable (DocWF pieces tg) :=
  inferInstanceAs
    (Decidable ((∀ gp ∈ pieces, NoOcc wpOpen gp.1 ∧ ParaWF gp.2) ∧ NoOcc wpOpen tg))

/-- C4 (amended): on a well-formed rendered document body and a non-blank
translation, `replaceTextInWordXml` performs exactly the structural rewrite of
the claim — paragraphs without a text run are left unchanged and consume
nothing; each paragraph with a text run receives, in document order, the next
translated paragraph, its first text run replaced by the escaped translation
and every later text run deleted; paragraphs after exhaustion keep their
original text — except that the translated text is split on `"\n"` with the
empty parts discarded (`Qt::SkipEmptyParts`), not the plain split of the
claim. -/
theorem wordXml_paragraph_rewrite (pieces : List (Str × WParaS)) (tg t : Str)
    (hwf : DocWF pieces tg) (ht : qtrim t ≠ []) :
    replaceTextInWordXml (renderDoc pieces tg) t
      = specTransform pieces ((splitLines t).filter (fun l => l ≠ [])) tg := by
  obtain ⟨hpieces, htg⟩ := hwf
  unfold replaceTextInWordXml
  rw [if_neg ht]
  simp only []
  rw [paraMatches_render pieces tg hpieces htg]
  have hwx : wxLoop (renderDoc pieces tg) ((splitLines t).filter (fun l => l ≠ []))
      (paraSpans 0 pieces) 0
      = specReps ((splitLines t).filter (fun l => l ≠ [])) 0 pieces 0 := by
    have h := wxLoop_struct ((splitLines t).filter (fun l => l ≠ [])) tg pieces [] 0
      (fun gp hgp => (hpieces gp hgp).2)
    simpa using h
  rw [hwx, List.foldl_reverse]
  have h := applyRepsR_struct ((splitLines t).filter (fun l => l ≠ [])) tg pieces [] 0
  simpa using h

/-- A small well-formed document: one paragraph holding two text runs inside a
`<w:r>` wrapper, then a run-free paragraph. -/
def c4Doc : List (Str × WParaS) :=
  [("<body>".toList, ⟨" a=\"1\"".toList, "<w:r>".toList,
      [(⟨" b=\"2\"".toList, "Hello".toList⟩, "</w:r>".toList),
       (⟨[], "World".toList⟩, [])]⟩),
   ([], ⟨[], "<w:pPr/>".toList, []⟩)]

theorem wordXml_paragraph_rewrite_witness :
    DocWF c4Doc "<sectPr/>".toList ∧ qtrim "First&\nSecond".toList ≠ [] ∧
    replaceTextInWordXml (renderDoc c4Doc "<sectPr/>".toList) "First&\nSecond".toList
      = specTransform c4Doc
          ((splitLines "First&\nSecond".toList).filter (fun l => l ≠ []))
          "<sectPr/>".toList :=
  ⟨by decide, by decide,
    wordXml_paragraph_rewrite c4Doc "<sectPr/>".toList "First&\nSecond".toList
      (by decide) (by decide)⟩

/-- Two one-run paragraphs, used to exhibit the `SkipEmptyParts` divergence. -/
def c4xDoc : List (Str × WParaS) :=
  [([], ⟨[], [], [(⟨[], "X".toList⟩, [])]⟩),
   ([], ⟨[], [], [(⟨[], "Y".toList⟩, [])]⟩)]

/-- C4 counterexample: on a well-formed document of two one-run paragraphs and
the translation `"A\n\nB"`, the code (which splits with
`Qt::SkipEmptyParts`) writes `"B"` into the second paragraph, while the
claim's plain split on `"\n"` would hand it the empty translated paragraph:
the claimed correspondence fails. -/
theorem wordXml_paragraph_rewrite_counterexample :
    DocWF c4xDoc [] ∧ qtrim "A\n\nB".toList ≠ [] ∧
    replaceTextInWordXml (renderDoc c4xDoc []) "A\n\nB".toList
      ≠ specTransform c4xDoc (splitLines "A\n\nB".toList) [] := by
  refine ⟨by decide, by decide, ?_⟩
  decide

end TransLoc
